import Mathlib

/-!
Verification development for the orb-weaver web generator
(src/utils.tsx and src/components/Canvas.tsx).

The geometric primitives of utils.tsx are embedded over the exact
rationals, with the floating-point square root and trigonometric
functions treated as explicit function parameters: a theorem about a
primitive takes the properties of the real functions that its proof
needs as hypotheses, and witnesses instantiate the parameters with
executable rational stand-ins.

JavaScript-specific semantics are modelled explicitly:
- `x % y` is the truncating remainder (sign of the dividend);
- `Math.round x` is `⌊x + 1/2⌋` (half-up);
- `Math.sign` is the three-valued sign;
- `Math.atan (y / x)` at `x = 0` is `atan (±∞) = ±π/2` for `y ≠ 0`
  and `NaN` for `y = 0`; non-finite results (NaN / ±∞) are modelled
  as `Option.none`.

A second, kernel-computable scalar type `Q` (unreduced integer
fractions) mirrors the same arithmetic for the stages of
Canvas.tsx's `weaveWeb` whose claims require evaluating whole
generation runs inside the kernel (`Rat`'s arithmetic is
irreducible and cannot be evaluated by `decide`).
-/

namespace OrbWeaver

/-! ## JavaScript numeric helpers over ℚ (src/utils.tsx) -/

/-- Model of JavaScript `Math.round`: round half-up, `⌊x + 1/2⌋`. -/
def jsRound (x : ℚ) : ℤ := ⌊x + 1/2⌋

/-- Embedding of `round(num, decimals)` from src/utils.tsx:
`Math.round(num * 10^decimals) / 10^decimals`. -/
def roundDec (num : ℚ) (decimals : ℕ) : ℚ :=
  (jsRound (num * 10 ^ decimals) : ℚ) / 10 ^ decimals

/-- Model of JavaScript `Math.sign` (three-valued). -/
def jsSign (x : ℚ) : ℚ := if x < 0 then -1 else if x = 0 then 0 else 1

/-! ## Vector (src/utils.tsx lines 4-110)

The field `sq : ℚ → ℚ` passed to the metric operations stands for
`Math.sqrt`; `v.mag` is `sq (x^2 + y^2)` and `distanceTo` is
`sq ((px-x)^2 + (py-y)^2)`, exactly as in the source. -/

/-- 2D vector, embedding the `Vector` class of src/utils.tsx. -/
structure Vector where
  x : ℚ
  y : ℚ
deriving DecidableEq, Repr

/-- Embedding of `Vector.plus`. -/
def Vector.plus (v u : Vector) : Vector := ⟨v.x + u.x, v.y + u.y⟩

/-- Embedding of `Vector.scale`. -/
def Vector.scale (v : Vector) (scalar : ℚ) : Vector := ⟨v.x * scalar, v.y * scalar⟩

/-- Embedding of `Vector.dot`. -/
def Vector.dot (v other : Vector) : ℚ := v.x * other.x + v.y * other.y

/-- Embedding of `Vector.mag`, with `sq` standing for `Math.sqrt`. -/
def Vector.mag (sq : ℚ → ℚ) (v : Vector) : ℚ := sq (v.x ^ 2 + v.y ^ 2)

/-- Embedding of `Vector.toSpace`. -/
def Vector.toSpace (v u : Vector) : Vector := ⟨v.x - u.x, v.y - u.y⟩

/-- Embedding of `Vector.distanceTo`, with `sq` standing for `Math.sqrt`. -/
def Vector.distanceTo (sq : ℚ → ℚ) (v point : Vector) : ℚ :=
  sq ((point.x - v.x) ^ 2 + (point.y - v.y) ^ 2)

/-- Embedding of `Vector.getAngle` (src/utils.tsx lines 88-100), in degrees.
`atanDeg` stands for `t ↦ radToDeg (Math.atan t)`.  The `transVec.x = 0`
cases spell out the IEEE evaluation of `Math.atan (y / x)` there:
`y / 0 = ±∞` for `y ≠ 0`, so the arctangent is `±90°`, and `0 / 0 = NaN`,
which propagates and is modelled as `none`. -/
def Vector.getAngle (atanDeg : ℚ → ℚ) (v origin : Vector) : Option ℚ :=
  let transVec := v.toSpace origin
  let baseAngle? : Option ℚ :=
    if transVec.x = 0 then
      if 0 < transVec.y then some 90
      else if transVec.y < 0 then some (-90)
      else none
    else some (atanDeg (transVec.y / transVec.x))
  baseAngle?.map fun baseAngle =>
    if transVec.x < 0 then baseAngle + 180
    else if transVec.y < 0 then baseAngle + 360
    else baseAngle

/-! ## Line (src/utils.tsx lines 115-196)

The source's `end` field is spelled `endp` (`end` is a Lean keyword),
and the cached `length` field — equal to
`end.toSpace(start).mag()` at construction and never mutated — is the
derived function `Line.length`. -/

/-- Line segment, embedding the `Line` class of src/utils.tsx. -/
structure Line where
  start : Vector
  endp : Vector
deriving DecidableEq, Repr

/-- Cached `length` field of `Line`: `end.toSpace(start).mag()`. -/
def Line.length (sq : ℚ → ℚ) (l : Line) : ℚ := (l.endp.toSpace l.start).mag sq

/-- Denominator `aA * bB - aB * bA` of the divisions in `Line.intersect`. -/
def Line.intersectDen (a b : Line) : ℚ :=
  (a.endp.y - a.start.y) * (b.endp.x - b.start.x) -
    (a.endp.x - a.start.x) * (b.endp.y - b.start.y)

/-- Embedding of `Line.intersect` (src/utils.tsx lines 131-145) with IEEE
division semantics: both coordinates are divided by
`aA * bB - aB * bA`, and when that denominator is zero JavaScript yields
`±Infinity` or `NaN`; those non-finite coordinates are modelled as
`none`.  Otherwise the coordinate is the exact quotient. -/
def Line.intersect (a other : Line) : Option ℚ × Option ℚ :=
  let aA := a.endp.y - a.start.y
  let aB := a.endp.x - a.start.x
  let aC := a.endp.x * a.start.y - a.endp.y * a.start.x
  let bA := other.endp.y - other.start.y
  let bB := other.endp.x - other.start.x
  let bC := other.endp.x * other.start.y - other.endp.y * other.start.x
  if aA * bB - aB * bA = 0 then (none, none)
  else (some ((aB * bC - bB * aC) / (aA * bB - aB * bA)),
        some (-(bA * aC - aA * bC) / (bB * aA - bA * aB)))

/-- Standard-form value `aA * x - aB * y + aC` of a point against a line's
implicit equation; it is `0` exactly on the infinite line through
`start` and `end` (the form used inside `Line.intersect`). -/
def Line.standardForm (l : Line) (x y : ℚ) : ℚ :=
  (l.endp.y - l.start.y) * x - (l.endp.x - l.start.x) * y +
    (l.endp.x * l.start.y - l.endp.y * l.start.x)

/-- Embedding of `Line.pointAt` (src/utils.tsx lines 151-153). -/
def Line.pointAt (l : Line) (position : ℚ) : Vector :=
  l.start.plus ((l.endp.toSpace l.start).scale position)

/-- Embedding of `Line.pointAtAbs` (src/utils.tsx lines 159-162). -/
def Line.pointAtAbs (sq : ℚ → ℚ) (l : Line) (position : ℚ) : Vector :=
  l.start.plus ((l.endp.toSpace l.start).scale (position / l.length sq))

/-- Embedding of `Line.contains` (src/utils.tsx lines 170-175). -/
def Line.contains (sq : ℚ → ℚ) (l : Line) (point : Vector) (extendedLine : Bool) : Bool :=
  let withinBounds :=
    decide (jsSign (roundDec (l.start.distanceTo sq point) 5) = 0) ||
    decide (jsSign (roundDec (point.distanceTo sq l.endp) 5) = 0) ||
    decide (jsSign (l.start.distanceTo sq point) = jsSign (point.distanceTo sq l.endp))
  let equalDistance :=
    decide (roundDec (l.start.distanceTo sq point + point.distanceTo sq l.endp) 5 =
      roundDec (l.length sq) 5)
  if extendedLine then equalDistance else equalDistance && withinBounds

/-- Embedding of `Line.lineValueAt` (src/utils.tsx lines 182-187); the
source's `null` is `none`.  (`this.contains(point)` uses the default
`extendedLine = false`.) -/
def Line.lineValueAt (sq : ℚ → ℚ) (l : Line) (point : Vector) : Option ℚ :=
  if l.contains sq point false
  then some ((Line.mk l.start point).length sq / l.length sq)
  else none

/-- Embedding of `Line.reverse`. -/
def Line.reverse (l : Line) : Line := ⟨l.endp, l.start⟩

/-- Squared length of a line over ℚ, the argument that `Line.length`
passes to the square-root function. -/
def Line.normSq (l : Line) : ℚ :=
  (l.endp.x - l.start.x) ^ 2 + (l.endp.y - l.start.y) ^ 2

/-! ## An executable rational square root

`ratSqrt` returns the exact nonnegative square root of a rational that
is a perfect square (of a rational) and `0` otherwise; it is the
concrete stand-in used by witnesses for the abstract `sq` parameter.
`sqrtN` is a fuel-bounded integer square root (largest `k ≤ fuel` with
`k * k ≤ n`), written by structural recursion so the kernel can
evaluate it. -/

/-- Fuel-bounded integer square root: the largest `k ≤ fuel` with `k * k ≤ n`. -/
def sqrtN : ℕ → ℕ → ℕ
  | 0, _ => 0
  | fuel + 1, n => if (fuel + 1) * (fuel + 1) ≤ n then fuel + 1 else sqrtN fuel n

/-- Executable rational square root: exact on perfect squares, `0` elsewhere. -/
def ratSqrt (q : ℚ) : ℚ :=
  let sn := sqrtN q.num.toNat q.num.toNat
  let sd := sqrtN q.den q.den
  if 0 ≤ q.num ∧ sn * sn = q.num.toNat ∧ sd * sd = q.den
  then (sn : ℚ) / (sd : ℚ)
  else 0

theorem sqrtN_mul_self (k : ℕ) : ∀ fuel, k ≤ fuel → sqrtN fuel (k * k) = k := by
  intro fuel
  induction fuel with
  | zero => intro h; interval_cases k; rfl
  | succ f ih =>
    intro h
    by_cases hk : (f + 1) * (f + 1) ≤ k * k
    · have h1 : k ≤ f + 1 := h
      have h2 : f + 1 ≤ k := by
        by_contra hlt
        push_neg at hlt
        have := Nat.mul_lt_mul_of_lt_of_le hlt (le_of_lt hlt) (Nat.zero_lt_succ f)
        omega
      have : k = f + 1 := le_antisymm h1 h2
      simp [sqrtN, hk, this]
    · have h2 : ¬ (f + 1 ≤ k) := by
        intro hle
        exact hk (Nat.mul_le_mul hle hle)
      have : k ≤ f := by omega
      simp [sqrtN, hk, ih this]

theorem ratSqrt_nonneg (q : ℚ) : 0 ≤ ratSqrt q := by
  unfold ratSqrt
  simp only []
  split
  · positivity
  · exact le_refl 0

theorem ratSqrt_sq (a : ℚ) (ha : 0 ≤ a) : ratSqrt (a ^ 2) = a := by
  have hsq : a ^ 2 = a * a := sq a
  have hnum : (a * a).num = a.num * a.num := Rat.mul_self_num a
  have hden : (a * a).den = a.den * a.den := Rat.mul_self_den a
  have hnn : 0 ≤ a.num := Rat.num_nonneg.mpr ha
  have htn : (a * a).num.toNat = a.num.toNat * a.num.toNat := by
    rw [hnum]
    rcases Int.eq_ofNat_of_zero_le hnn with ⟨m, hm⟩
    rw [hm, ← Nat.cast_mul]
    simp only [Int.toNat_natCast]
  have hkn : a.num.toNat ≤ a.num.toNat * a.num.toNat := by
    rcases Nat.eq_zero_or_pos a.num.toNat with h0 | h1
    · omega
    · exact Nat.le_mul_of_pos_left _ h1
  have hkd : a.den ≤ a.den * a.den := Nat.le_mul_of_pos_left _ a.pos
  have hsn : sqrtN (a * a).num.toNat (a * a).num.toNat = a.num.toNat := by
    rw [htn]; exact sqrtN_mul_self _ _ hkn
  have hsd : sqrtN (a * a).den (a * a).den = a.den := by
    rw [hden]; exact sqrtN_mul_self _ _ hkd
  rw [hsq]
  unfold ratSqrt
  rw [hsn, hsd]
  have hcond : 0 ≤ (a * a).num ∧ a.num.toNat * a.num.toNat = (a * a).num.toNat ∧
      a.den * a.den = (a * a).den := ⟨hnum ▸ mul_nonneg hnn hnn, htn.symm, hden.symm⟩
  rw [if_pos hcond]
  have hcast : ((a.num.toNat : ℕ) : ℚ) = (a.num : ℚ) := by
    rcases Int.eq_ofNat_of_zero_le hnn with ⟨m, hm⟩
    rw [hm]
    simp
  rw [hcast]
  exact_mod_cast Rat.num_div_den a

/-! ## Small evaluation lemmas for the JS numeric helpers -/

theorem floor_half : ⌊(1/2 : ℚ)⌋ = 0 := by
  rw [Int.floor_eq_zero_iff]
  constructor <;> norm_num

theorem jsRound_intCast (n : ℤ) : jsRound (n : ℚ) = n := by
  unfold jsRound
  rw [Int.floor_int_add, floor_half, add_zero]

theorem roundDec_intCast (n : ℤ) (d : ℕ) : roundDec (n : ℚ) d = n := by
  unfold roundDec
  have h : ((n : ℚ) * 10 ^ d) = ((n * 10 ^ d : ℤ) : ℚ) := by push_cast; ring
  rw [h, jsRound_intCast]
  push_cast
  field_simp

theorem roundDec_zero (d : ℕ) : roundDec 0 d = 0 := by
  have := roundDec_intCast 0 d
  simpa using this

theorem jsSign_of_pos {x : ℚ} (h : 0 < x) : jsSign x = 1 := by
  unfold jsSign
  rw [if_neg (not_lt.mpr h.le), if_neg (ne_of_gt h)]

theorem jsSign_zero : jsSign 0 = 0 := by
  unfold jsSign
  norm_num

/-! ## Claim C10 — the extendedLine flag never changes `contains` -/

/-- C10: for every line and every point, `contains point true` equals
`contains point false`, because the `withinBounds` conjunct is true for
all inputs: both distances are outputs of the square root (so
nonnegative), and a nonnegative quantity either rounds from an exact
zero (sign 0, first two disjuncts) or is positive on both sides (equal
signs, third disjunct).  The hypothesis states the single property of
`Math.sqrt` the argument uses: its values are nonnegative. -/
theorem contains_extended_irrelevant (sq : ℚ → ℚ) (hnn : ∀ q, 0 ≤ sq q)
    (l : Line) (point : Vector) :
    l.contains sq point true = l.contains sq point false := by
  have h1 : 0 ≤ l.start.distanceTo sq point := hnn _
  have h2 : 0 ≤ point.distanceTo sq l.endp := hnn _
  have hwb : (decide (jsSign (roundDec (l.start.distanceTo sq point) 5) = 0) ||
      decide (jsSign (roundDec (point.distanceTo sq l.endp) 5) = 0) ||
      decide (jsSign (l.start.distanceTo sq point) =
        jsSign (point.distanceTo sq l.endp))) = true := by
    rcases eq_or_lt_of_le h1 with he1 | hl1
    · have hz : roundDec (l.start.distanceTo sq point) 5 = 0 := by
        rw [← he1]; exact roundDec_zero 5
      simp [hz, jsSign_zero]
    · rcases eq_or_lt_of_le h2 with he2 | hl2
      · have hz : roundDec (point.distanceTo sq l.endp) 5 = 0 := by
          rw [← he2]; exact roundDec_zero 5
        simp [hz, jsSign_zero]
      · simp [jsSign_of_pos hl1, jsSign_of_pos hl2]
  simp [Line.contains, hwb]

/-- Witness for C10 at `sq = |·|`, the segment (0,0)–(1,0) and the point
(5,7): the hypothesis and the instance are produced by applying the
theorem. -/
theorem contains_extended_irrelevant_witness :
    (∀ q : ℚ, 0 ≤ |q|) ∧
    Line.contains (fun q => |q|) ⟨⟨0, 0⟩, ⟨1, 0⟩⟩ ⟨5, 7⟩ true =
      Line.contains (fun q => |q|) ⟨⟨0, 0⟩, ⟨1, 0⟩⟩ ⟨5, 7⟩ false :=
  ⟨fun q => abs_nonneg q,
    contains_extended_irrelevant (fun q => |q|) (fun q => abs_nonneg q) _ _⟩

/-! ## Claim C7 — `lineValueAt ∘ pointAt` round-trips -/

/-- C7: on a non-degenerate line (positive length) and `t ∈ [0,1]`,
`lineValueAt (pointAt t)` is defined and equals `t` — exactly, hence in
particular within the claim's 1e-5 tolerance.  The hypothesis `hm`
states the square-root identity `√(a² · K) = a · √K` (for `a ≥ 0`) at
the line's squared length `K`, which is how the exact square root
relates the three distances the `contains` test compares. -/
theorem lineValueAt_pointAt_roundtrip (sq : ℚ → ℚ) (l : Line) (t : ℚ)
    (hm : ∀ a : ℚ, 0 ≤ a → sq (a ^ 2 * l.normSq) = a * sq l.normSq)
    (hL : 0 < l.length sq) (ht0 : 0 ≤ t) (ht1 : t ≤ 1) :
    l.lineValueAt sq (l.pointAt t) = some t := by
  have hlen : l.length sq = sq l.normSq := rfl
  have hd1 : l.start.distanceTo sq (l.pointAt t) = sq (t ^ 2 * l.normSq) := by
    unfold Vector.distanceTo
    exact congrArg sq (by
      simp only [Line.pointAt, Vector.plus, Vector.scale, Vector.toSpace, Line.normSq]
      ring)
  have hd2 : (l.pointAt t).distanceTo sq l.endp = sq ((1 - t) ^ 2 * l.normSq) := by
    unfold Vector.distanceTo
    exact congrArg sq (by
      simp only [Line.pointAt, Vector.plus, Vector.scale, Vector.toSpace, Line.normSq]
      ring)
  have hL' : 0 < sq l.normSq := hlen ▸ hL
  have e1 : l.start.distanceTo sq (l.pointAt t) = t * sq l.normSq := by
    rw [hd1, hm t ht0]
  have e2 : (l.pointAt t).distanceTo sq l.endp = (1 - t) * sq l.normSq := by
    rw [hd2, hm (1 - t) (by linarith)]
  have hsum : l.start.distanceTo sq (l.pointAt t) +
      (l.pointAt t).distanceTo sq l.endp = l.length sq := by
    rw [e1, e2, hlen]; ring
  have heq : (decide (roundDec (l.start.distanceTo sq (l.pointAt t) +
      (l.pointAt t).distanceTo sq l.endp) 5 = roundDec (l.length sq) 5)) = true := by
    rw [hsum]
    simp
  have hwb : (decide (jsSign (roundDec (l.start.distanceTo sq (l.pointAt t)) 5) = 0) ||
      decide (jsSign (roundDec ((l.pointAt t).distanceTo sq l.endp) 5) = 0) ||
      decide (jsSign (l.start.distanceTo sq (l.pointAt t)) =
        jsSign ((l.pointAt t).distanceTo sq l.endp))) = true := by
    rcases eq_or_lt_of_le ht0 with h0 | h0
    · have hz : roundDec (l.start.distanceTo sq (l.pointAt t)) 5 = 0 := by
        rw [e1, ← h0, zero_mul]
        exact roundDec_zero 5
      simp [hz, jsSign_zero]
    · rcases eq_or_lt_of_le ht1 with h1 | h1
      · have hz : roundDec ((l.pointAt t).distanceTo sq l.endp) 5 = 0 := by
          rw [e2, h1, sub_self, zero_mul]
          exact roundDec_zero 5
        simp [hz, jsSign_zero]
      · have p1 : 0 < l.start.distanceTo sq (l.pointAt t) := by
          rw [e1]; positivity
        have p2 : 0 < (l.pointAt t).distanceTo sq l.endp := by
          rw [e2]; have : 0 < 1 - t := by linarith
          positivity
        simp [jsSign_of_pos p1, jsSign_of_pos p2]
  have hcont : l.contains sq (l.pointAt t) false = true := by
    simp [Line.contains, heq, hwb]
  unfold Line.lineValueAt
  rw [if_pos hcont]
  have hnum : (Line.mk l.start (l.pointAt t)).length sq = t * sq l.normSq := by
    have : (Line.mk l.start (l.pointAt t)).length sq = sq (t ^ 2 * l.normSq) := by
      unfold Line.length Vector.mag
      exact congrArg sq (by
        simp only [Line.pointAt, Vector.plus, Vector.scale, Vector.toSpace, Line.normSq]
        ring)
    rw [this, hm t ht0]
  rw [hnum, hlen]
  congr 1
  field_simp

/-- Witness for C7 on the concrete segment (0,0)–(1,0) (squared length 1)
with `sq = ratSqrt` and `t = 1/2`; the multiplicativity hypothesis at
`K = 1` follows from `ratSqrt` being exact on rational squares. -/
theorem lineValueAt_pointAt_roundtrip_witness :
    (∀ a : ℚ, 0 ≤ a →
      ratSqrt (a ^ 2 * Line.normSq ⟨⟨0, 0⟩, ⟨1, 0⟩⟩) =
        a * ratSqrt (Line.normSq ⟨⟨0, 0⟩, ⟨1, 0⟩⟩)) ∧
    0 < Line.length ratSqrt ⟨⟨0, 0⟩, ⟨1, 0⟩⟩ ∧
    (0 : ℚ) ≤ 1/2 ∧ (1/2 : ℚ) ≤ 1 ∧
    Line.lineValueAt ratSqrt ⟨⟨0, 0⟩, ⟨1, 0⟩⟩
      (Line.pointAt ⟨⟨0, 0⟩, ⟨1, 0⟩⟩ (1/2)) = some (1/2) := by
  have hone : ratSqrt 1 = 1 := by
    have := ratSqrt_sq 1 (by norm_num)
    simpa using this
  have hK : Line.normSq ⟨⟨0, 0⟩, ⟨1, 0⟩⟩ = 1 := by
    simp [Line.normSq]
  have hm : ∀ a : ℚ, 0 ≤ a →
      ratSqrt (a ^ 2 * Line.normSq ⟨⟨0, 0⟩, ⟨1, 0⟩⟩) =
        a * ratSqrt (Line.normSq ⟨⟨0, 0⟩, ⟨1, 0⟩⟩) := by
    intro a ha
    rw [hK, mul_one, hone, mul_one]
    exact ratSqrt_sq a ha
  have hL : 0 < Line.length ratSqrt ⟨⟨0, 0⟩, ⟨1, 0⟩⟩ := by
    have : Line.length ratSqrt ⟨⟨0, 0⟩, ⟨1, 0⟩⟩ = ratSqrt (Line.normSq ⟨⟨0, 0⟩, ⟨1, 0⟩⟩) := rfl
    rw [this, hK, hone]
    norm_num
  exact ⟨hm, hL, by norm_num, by norm_num,
    lineValueAt_pointAt_roundtrip ratSqrt ⟨⟨0, 0⟩, ⟨1, 0⟩⟩ (1/2) hm hL
      (by norm_num) (by norm_num)⟩

/-! ## Claim C6 — `getAngle` is defined and lands in [0, 360) -/

/-- C6: for `v ≠ origin`, `getAngle` returns a defined angle in
`[0°, 360°)`, including the vertical case `x = 0` (handled through the
IEEE evaluation `atan (±∞) = ±90°` rather than a division-by-zero
failure).  The hypotheses state the properties of the degree-valued
real arctangent that the quadrant correction relies on: its range is
`(-90°, 90°)` and it has the sign of its argument. -/
theorem getAngle_normalized (atanDeg : ℚ → ℚ)
    (hrange : ∀ q, -90 < atanDeg q ∧ atanDeg q < 90)
    (hpos : ∀ q, 0 ≤ q → 0 ≤ atanDeg q)
    (hneg : ∀ q, q < 0 → atanDeg q < 0)
    (v origin : Vector) (hne : v ≠ origin) :
    ∃ a, v.getAngle atanDeg origin = some a ∧ 0 ≤ a ∧ a < 360 := by
  have hx : (v.toSpace origin).x = v.x - origin.x := rfl
  have hy : (v.toSpace origin).y = v.y - origin.y := rfl
  rcases lt_trichotomy (v.x - origin.x) 0 with hxn | hx0 | hxp
  · -- x < 0 : angle = atanDeg (y/x) + 180 ∈ (90, 270)
    refine ⟨atanDeg ((v.y - origin.y) / (v.x - origin.x)) + 180, ?_, ?_, ?_⟩
    · simp only [Vector.getAngle, hx, hy]
      rw [if_neg (by linarith : ¬ (v.x - origin.x = 0))]
      simp only [Option.map_some']
      rw [if_pos hxn]
    · have := (hrange ((v.y - origin.y) / (v.x - origin.x))).1
      linarith
    · have := (hrange ((v.y - origin.y) / (v.x - origin.x))).2
      linarith
  · -- x = 0 : vertical vector, y ≠ 0
    have hyne : v.y - origin.y ≠ 0 := by
      intro hy0
      apply hne
      have hvx : v.x = origin.x := by linarith
      have hvy : v.y = origin.y := by linarith
      cases v; cases origin
      simp_all
    rcases lt_trichotomy (v.y - origin.y) 0 with hyn | hy0 | hyp
    · refine ⟨270, ?_, by norm_num, by norm_num⟩
      simp only [Vector.getAngle, hx, hy]
      rw [if_pos hx0, if_neg (by linarith : ¬ (0 < v.y - origin.y)), if_pos hyn]
      simp only [Option.map_some']
      rw [if_neg (by linarith : ¬ (v.x - origin.x < 0)), if_pos hyn]
      norm_num
    · exact absurd hy0 hyne
    · refine ⟨90, ?_, by norm_num, by norm_num⟩
      simp only [Vector.getAngle, hx, hy]
      rw [if_pos hx0, if_pos hyp]
      simp only [Option.map_some']
      rw [if_neg (by linarith : ¬ (v.x - origin.x < 0)),
        if_neg (by linarith : ¬ (v.y - origin.y < 0))]
  · -- x > 0 : angle = atanDeg (y/x), plus 360 when y < 0
    rcases lt_trichotomy (v.y - origin.y) 0 with hyn | hy0 | hyp
    · refine ⟨atanDeg ((v.y - origin.y) / (v.x - origin.x)) + 360, ?_, ?_, ?_⟩
      · simp only [Vector.getAngle, hx, hy]
        rw [if_neg (by linarith : ¬ (v.x - origin.x = 0))]
        simp only [Option.map_some']
        rw [if_neg (by linarith : ¬ (v.x - origin.x < 0)), if_pos hyn]
      · have := (hrange ((v.y - origin.y) / (v.x - origin.x))).1
        linarith
      · have harg : (v.y - origin.y) / (v.x - origin.x) < 0 :=
          div_neg_of_neg_of_pos hyn hxp
        have := hneg _ harg
        linarith
    · refine ⟨atanDeg ((v.y - origin.y) / (v.x - origin.x)), ?_, ?_, ?_⟩
      · simp only [Vector.getAngle, hx, hy]
        rw [if_neg (by linarith : ¬ (v.x - origin.x = 0))]
        simp only [Option.map_some']
        rw [if_neg (by linarith : ¬ (v.x - origin.x < 0)),
          if_neg (by linarith : ¬ (v.y - origin.y < 0))]
      · exact hpos _ (by rw [hy0, zero_div])
      · have := (hrange ((v.y - origin.y) / (v.x - origin.x))).2
        linarith
    · refine ⟨atanDeg ((v.y - origin.y) / (v.x - origin.x)), ?_, ?_, ?_⟩
      · simp only [Vector.getAngle, hx, hy]
        rw [if_neg (by linarith : ¬ (v.x - origin.x = 0))]
        simp only [Option.map_some']
        rw [if_neg (by linarith : ¬ (v.x - origin.x < 0)),
          if_neg (by linarith : ¬ (v.y - origin.y < 0))]
      · exact hpos _ (le_of_lt (div_pos hyp hxp))
      · have := (hrange ((v.y - origin.y) / (v.x - origin.x))).2
        linarith

/-- Concrete stand-in for the degree-valued arctangent used by the C6
witness: range `(-90, 90)` and the sign of the argument. -/
def atanDegStub (q : ℚ) : ℚ := if q < 0 then -45 else if q = 0 then 0 else 45

theorem atanDegStub_range (q : ℚ) : -90 < atanDegStub q ∧ atanDegStub q < 90 := by
  unfold atanDegStub
  split <;> [skip; split] <;> norm_num

theorem atanDegStub_nonneg (q : ℚ) (h : 0 ≤ q) : 0 ≤ atanDegStub q := by
  unfold atanDegStub
  rw [if_neg (not_lt.mpr h)]
  split <;> norm_num

theorem atanDegStub_neg (q : ℚ) (h : q < 0) : atanDegStub q < 0 := by
  unfold atanDegStub
  rw [if_pos h]
  norm_num

/-- Witness for C6 at the vertical configuration `v = (2, 7)`,
`origin = (2, 3)` (translated vector has `x = 0`). -/
theorem getAngle_normalized_witness :
    (∀ q : ℚ, -90 < atanDegStub q ∧ atanDegStub q < 90) ∧
    (Vector.mk 2 7 ≠ Vector.mk 2 3) ∧
    ∃ a, Vector.getAngle atanDegStub ⟨2, 7⟩ ⟨2, 3⟩ = some a ∧ 0 ≤ a ∧ a < 360 :=
  ⟨atanDegStub_range, by decide,
    getAngle_normalized atanDegStub atanDegStub_range atanDegStub_nonneg
      atanDegStub_neg ⟨2, 7⟩ ⟨2, 3⟩ (by decide)⟩

/-! ## Claim C2 — `intersect` on parallel lines -/

/-- C2 counterexample: on the concrete parallel pair
y = 0 (through (0,0)–(1,0)) and y = 1 (through (0,1)–(1,1)) — the
denominator `aA*bB - aB*bA` is zero — `intersect` returns the
non-finite pair `(none, none)`: the JavaScript division by zero
produces `Infinity`/`NaN` coordinates.  The result is an ordinary
`Vector` full of IEEE junk, not a distinguished "no intersection"
value, which refutes the claim that a defined no-intersection result
is returned. -/
theorem intersect_parallel_nonfinite :
    Line.intersect ⟨⟨0, 0⟩, ⟨1, 0⟩⟩ ⟨⟨0, 1⟩, ⟨1, 1⟩⟩ = (none, none) := by
  norm_num [Line.intersect]

/-- C2 amended: `intersect` does not crash in any case: with a zero
denominator it yields non-finite coordinates (modelled `none`), and for
every non-parallel pair it returns the exact intersection point of the
two infinite lines — both standard-form equations vanish there. -/
theorem intersect_nonparallel_point (a b : Line) (h : a.intersectDen b ≠ 0) :
    ∃ x y : ℚ, a.intersect b = (some x, some y) ∧
      a.standardForm x y = 0 ∧ b.standardForm x y = 0 := by
  have hden : (a.endp.y - a.start.y) * (b.endp.x - b.start.x) -
      (a.endp.x - a.start.x) * (b.endp.y - b.start.y) ≠ 0 := h
  have hden' : (b.endp.x - b.start.x) * (a.endp.y - a.start.y) -
      (b.endp.y - b.start.y) * (a.endp.x - a.start.x) ≠ 0 := by
    intro h0
    apply hden
    linarith
  refine ⟨((a.endp.x - a.start.x) * (b.endp.x * b.start.y - b.endp.y * b.start.x) -
      (b.endp.x - b.start.x) * (a.endp.x * a.start.y - a.endp.y * a.start.x)) /
      ((a.endp.y - a.start.y) * (b.endp.x - b.start.x) -
        (a.endp.x - a.start.x) * (b.endp.y - b.start.y)),
    -((b.endp.y - b.start.y) * (a.endp.x * a.start.y - a.endp.y * a.start.x) -
      (a.endp.y - a.start.y) * (b.endp.x * b.start.y - b.endp.y * b.start.x)) /
      ((b.endp.x - b.start.x) * (a.endp.y - a.start.y) -
        (b.endp.y - b.start.y) * (a.endp.x - a.start.x)),
    ?_, ?_, ?_⟩
  · simp only [Line.intersect]
    rw [if_neg hden]
  · unfold Line.standardForm
    field_simp
    ring
  · unfold Line.standardForm
    field_simp
    ring

/-- Witness for C2 (amended) at the non-parallel pair
(0,0)–(1,0) and (3,1)–(3,−1). -/
theorem intersect_nonparallel_point_witness :
    Line.intersectDen ⟨⟨0, 0⟩, ⟨1, 0⟩⟩ ⟨⟨3, 1⟩, ⟨3, -1⟩⟩ ≠ 0 ∧
    ∃ x y : ℚ, Line.intersect ⟨⟨0, 0⟩, ⟨1, 0⟩⟩ ⟨⟨3, 1⟩, ⟨3, -1⟩⟩ = (some x, some y) ∧
      Line.standardForm ⟨⟨0, 0⟩, ⟨1, 0⟩⟩ x y = 0 ∧
      Line.standardForm ⟨⟨3, 1⟩, ⟨3, -1⟩⟩ x y = 0 := by
  have h : Line.intersectDen ⟨⟨0, 0⟩, ⟨1, 0⟩⟩ ⟨⟨3, 1⟩, ⟨3, -1⟩⟩ ≠ 0 := by
    norm_num [Line.intersectDen]
  exact ⟨h, intersect_nonparallel_point _ _ h⟩

/-! ## Claim C8 — extended `contains` rejects off-segment intersections -/

/-- C8: evaluation of the code at the failing input.  The segments
(0,0)–(1,0) and (3,1)–(3,−1) are not parallel and `intersect` returns
their infinite-line intersection (3, 0); that point lies beyond the
first segment, and `contains ⟨3,0⟩ extended=true` on it evaluates to
`false` — the `extendedLine` flag does not switch `contains` to an
infinite-line test, because the `equalDistance` conjunct it keeps is
itself the distance-sum segment test (`3 + 2 ≠ 1`).  On the second
segment, which the point does lie on, the same test returns `true`. -/
theorem intersect_contains_extended_failure :
    Line.intersect ⟨⟨0, 0⟩, ⟨1, 0⟩⟩ ⟨⟨3, 1⟩, ⟨3, -1⟩⟩ = (some 3, some 0) ∧
    Line.contains ratSqrt ⟨⟨0, 0⟩, ⟨1, 0⟩⟩ ⟨3, 0⟩ true = false ∧
    Line.contains ratSqrt ⟨⟨3, 1⟩, ⟨3, -1⟩⟩ ⟨3, 0⟩ true = true := by
  have h1 : ratSqrt 1 = 1 := by
    have := ratSqrt_sq 1 (by norm_num)
    simpa using this
  have h4 : ratSqrt 4 = 2 := by
    have := ratSqrt_sq 2 (by norm_num)
    norm_num at this
    exact this
  have h9 : ratSqrt 9 = 3 := by
    have := ratSqrt_sq 3 (by norm_num)
    norm_num at this
    exact this
  refine ⟨by norm_num [Line.intersect], ?_, ?_⟩
  · have hd1 : Vector.distanceTo ratSqrt ⟨0, 0⟩ ⟨3, 0⟩ = 3 := by
      unfold Vector.distanceTo
      norm_num [h9]
    have hd2 : Vector.distanceTo ratSqrt ⟨3, 0⟩ ⟨1, 0⟩ = 2 := by
      unfold Vector.distanceTo
      norm_num [h4]
    have hlen : Line.length ratSqrt ⟨⟨0, 0⟩, ⟨1, 0⟩⟩ = 1 := by
      unfold Line.length Vector.mag Vector.toSpace
      norm_num [h1]
    simp only [Line.contains, hd1, hd2, hlen]
    have e5 : roundDec (3 + 2 : ℚ) 5 = 5 := by
      have := roundDec_intCast 5 5
      norm_num at this
      norm_num [this]
    have e1 : roundDec (1 : ℚ) 5 = 1 := by
      have := roundDec_intCast 1 5
      norm_num at this
      exact this
    rw [e5, e1]
    simp
  · have hd1 : Vector.distanceTo ratSqrt ⟨3, 1⟩ ⟨3, 0⟩ = 1 := by
      unfold Vector.distanceTo
      norm_num [h1]
    have hd2 : Vector.distanceTo ratSqrt ⟨3, 0⟩ ⟨3, -1⟩ = 1 := by
      unfold Vector.distanceTo
      norm_num [h1]
    have hlen : Line.length ratSqrt ⟨⟨3, 1⟩, ⟨3, -1⟩⟩ = 2 := by
      unfold Line.length Vector.mag Vector.toSpace
      norm_num [h4]
    simp only [Line.contains, hd1, hd2, hlen]
    have e2 : roundDec (1 + 1 : ℚ) 5 = 2 := by
      have := roundDec_intCast 2 5
      norm_num at this
      norm_num [this]
    have e2' : roundDec (2 : ℚ) 5 = 2 := by
      have := roundDec_intCast 2 5
      norm_num at this
      exact this
    rw [e2, e2']
    simp

/-! ## Layer B: a kernel-computable rational scalar

Mathlib's `Rat` operations are irreducible, so whole generation runs
of `weaveWeb` cannot be evaluated by `decide`.  The stages of
Canvas.tsx that the remaining claims quantify over are therefore
mirrored over `Q`, integer fractions normalized through `qRaw`
(positive denominator, reduced by the gcd), whose operations the
kernel can evaluate.  `Q.toRat` maps back to ℚ and the lemmas below
transport order and arithmetic, so general theorems about the mirrored
code are proved over ℚ while concrete runs are checked by `decide`. -/

/-- Kernel-computable rational scalar: an integer fraction `n / d`. -/
structure Q where
  n : ℤ
  d : ℤ
deriving DecidableEq, Repr

/-- Well-formedness: positive denominator (every value built by `qRaw`
from a nonzero denominator satisfies it). -/
def Q.wf (q : Q) : Prop := 0 < q.d

instance : Inhabited Q := ⟨⟨0, 1⟩⟩

/-- Normalizing constructor: sign on the numerator, denominator reduced
by the gcd.  A zero requested denominator gives the poison value
`⟨0, 0⟩` (standing for a non-finite JavaScript number); it never arises
in the runs considered. -/
def qRaw (num den : ℤ) : Q :=
  if den = 0 then ⟨0, 0⟩
  else
    let s : ℤ := if den < 0 then -1 else 1
    let n1 := s * num
    let d1 := s * den
    let g : ℤ := (n1.gcd d1 : ℕ)
    ⟨n1 / g, d1 / g⟩

/-- Value of a `Q` as a Mathlib rational. -/
def Q.toRat (q : Q) : ℚ := (q.n : ℚ) / (q.d : ℚ)

theorem qRaw_wf (num den : ℤ) (hd : den ≠ 0) : (qRaw num den).wf := by
  unfold qRaw
  rw [if_neg hd]
  simp only []
  set s : ℤ := if den < 0 then -1 else 1 with hs
  have hd1 : 0 < s * den := by
    rcases lt_trichotomy den 0 with h | h | h
    · rw [hs, if_pos h]; nlinarith
    · exact absurd h hd
    · rw [hs, if_neg (not_lt.mpr h.le)]; nlinarith
  set g : ℤ := (((s * num).gcd (s * den) : ℕ) : ℤ) with hgdef
  have hg : 0 < g := by
    have hne : (s * num).gcd (s * den) ≠ 0 := by
      intro h0
      have := Int.gcd_eq_zero_iff.mp h0
      omega
    rw [hgdef]
    positivity
  have hdvd : g ∣ s * den := hgdef ▸ Int.gcd_dvd_right
  rcases hdvd with ⟨k, hk⟩
  have hdiv : s * den / g = k := by
    rw [hk]
    exact Int.mul_ediv_cancel_left k hg.ne'
  show 0 < s * den / g
  rw [hdiv]
  nlinarith [hk]

theorem qRaw_toRat (num den : ℤ) (hd : den ≠ 0) :
    (qRaw num den).toRat = (num : ℚ) / (den : ℚ) := by
  unfold qRaw
  rw [if_neg hd]
  simp only []
  set s : ℤ := if den < 0 then -1 else 1 with hs
  have hsne : s ≠ 0 := by
    rcases lt_trichotomy den 0 with h | h | h
    · rw [hs, if_pos h]; norm_num
    · exact absurd h hd
    · rw [hs, if_neg (not_lt.mpr h.le)]; norm_num
  have hd1 : s * den ≠ 0 := mul_ne_zero hsne hd
  set g : ℤ := (((s * num).gcd (s * den) : ℕ) : ℤ) with hgdef
  have hg : g ≠ 0 := by
    intro h0
    have h0' : (s * num).gcd (s * den) = 0 := by
      rw [hgdef] at h0
      exact_mod_cast h0
    exact hd1 (Int.gcd_eq_zero_iff.mp h0').2
  rcases (hgdef ▸ Int.gcd_dvd_left : g ∣ s * num) with ⟨m, hm⟩
  rcases (hgdef ▸ Int.gcd_dvd_right : g ∣ s * den) with ⟨k, hk⟩
  have hdivn : s * num / g = m := by
    rw [hm]; exact Int.mul_ediv_cancel_left m hg
  have hdivd : s * den / g = k := by
    rw [hk]; exact Int.mul_ediv_cancel_left k hg
  show ((s * num / g : ℤ) : ℚ) / ((s * den / g : ℤ) : ℚ) = (num : ℚ) / (den : ℚ)
  rw [hdivn, hdivd]
  have cast_hm : ((s : ℚ) * num) = ((g : ℚ)) * m := by exact_mod_cast hm
  have cast_hk : ((s : ℚ) * den) = ((g : ℚ)) * k := by exact_mod_cast hk
  have hgq : (g : ℚ) ≠ 0 := by exact_mod_cast hg
  have hsq : (s : ℚ) ≠ 0 := by exact_mod_cast hsne
  have hdq : (den : ℚ) ≠ 0 := by exact_mod_cast hd
  have hkq : (k : ℚ) ≠ 0 := by
    intro h0
    apply mul_ne_zero hsq hdq
    have hzero : ((s : ℚ) * den) = 0 := by rw [cast_hk, h0, mul_zero]
    exact_mod_cast hzero
  have key : (g : ℚ) * ((m : ℚ) * den) = (g : ℚ) * ((num : ℚ) * k) := by
    calc (g : ℚ) * ((m : ℚ) * den) = ((g : ℚ) * m) * den := by ring
    _ = ((s : ℚ) * num) * den := by rw [cast_hm]
    _ = ((s : ℚ) * den) * num := by ring
    _ = ((g : ℚ) * k) * num := by rw [cast_hk]
    _ = (g : ℚ) * ((num : ℚ) * k) := by ring
  have hmk := mul_left_cancel₀ hgq key
  field_simp
  linarith [hmk]

/-- Addition (`a + b` on JavaScript numbers). -/
def qAdd (a b : Q) : Q := qRaw (a.n * b.d + b.n * a.d) (a.d * b.d)

/-- Subtraction. -/
def qSub (a b : Q) : Q := qRaw (a.n * b.d - b.n * a.d) (a.d * b.d)

/-- Multiplication. -/
def qMul (a b : Q) : Q := qRaw (a.n * b.n) (a.d * b.d)

/-- Division (poison `⟨0,0⟩` on a zero divisor, standing for the IEEE
non-finite results). -/
def qDiv (a b : Q) : Q := qRaw (a.n * b.d) (a.d * b.n)

/-- Negation. -/
def qNeg (a : Q) : Q := qRaw (-a.n) a.d

/-- Integer constant. -/
def qOfInt (k : ℤ) : Q := ⟨k, 1⟩

/-- Injection of a Mathlib rational (already reduced). -/
def qOfRat (x : ℚ) : Q := ⟨x.num, (x.den : ℤ)⟩

/-- Strict order test, by cross multiplication (sound for well-formed
operands). -/
def qLtB (a b : Q) : Bool := decide (a.n * b.d < b.n * a.d)

/-- Non-strict order test. -/
def qLeB (a b : Q) : Bool := decide (a.n * b.d ≤ b.n * a.d)

theorem qAdd_wf {a b : Q} (ha : a.wf) (hb : b.wf) : (qAdd a b).wf :=
  qRaw_wf _ _ (mul_ne_zero ha.ne' hb.ne')

theorem qSub_wf {a b : Q} (ha : a.wf) (hb : b.wf) : (qSub a b).wf :=
  qRaw_wf _ _ (mul_ne_zero ha.ne' hb.ne')

theorem qMul_wf {a b : Q} (ha : a.wf) (hb : b.wf) : (qMul a b).wf :=
  qRaw_wf _ _ (mul_ne_zero ha.ne' hb.ne')

theorem qOfInt_wf (k : ℤ) : (qOfInt k).wf := by
  unfold qOfInt Q.wf
  norm_num

theorem qOfRat_wf (x : ℚ) : (qOfRat x).wf := by
  show (0 : ℤ) < ((x.den : ℤ))
  exact_mod_cast x.pos

theorem qAdd_toRat {a b : Q} (ha : a.wf) (hb : b.wf) :
    (qAdd a b).toRat = a.toRat + b.toRat := by
  unfold qAdd
  rw [qRaw_toRat _ _ (mul_ne_zero ha.ne' hb.ne')]
  unfold Q.toRat
  have h1 : (a.d : ℚ) ≠ 0 := by exact_mod_cast ha.ne'
  have h2 : (b.d : ℚ) ≠ 0 := by exact_mod_cast hb.ne'
  push_cast
  field_simp
  all_goals ring

theorem qSub_toRat {a b : Q} (ha : a.wf) (hb : b.wf) :
    (qSub a b).toRat = a.toRat - b.toRat := by
  unfold qSub
  rw [qRaw_toRat _ _ (mul_ne_zero ha.ne' hb.ne')]
  unfold Q.toRat
  have h1 : (a.d : ℚ) ≠ 0 := by exact_mod_cast ha.ne'
  have h2 : (b.d : ℚ) ≠ 0 := by exact_mod_cast hb.ne'
  push_cast
  field_simp
  all_goals ring

theorem qMul_toRat {a b : Q} (ha : a.wf) (hb : b.wf) :
    (qMul a b).toRat = a.toRat * b.toRat := by
  unfold qMul
  rw [qRaw_toRat _ _ (mul_ne_zero ha.ne' hb.ne')]
  unfold Q.toRat
  have h1 : (a.d : ℚ) ≠ 0 := by exact_mod_cast ha.ne'
  have h2 : (b.d : ℚ) ≠ 0 := by exact_mod_cast hb.ne'
  push_cast
  field_simp
  all_goals ring

theorem qDiv_wf {a b : Q} (ha : a.wf) (hb : b.n ≠ 0) : (qDiv a b).wf :=
  qRaw_wf _ _ (mul_ne_zero ha.ne' hb)

theorem qDiv_toRat {a b : Q} (ha : a.wf) (hb : b.wf) (hbn : b.n ≠ 0) :
    (qDiv a b).toRat = a.toRat / b.toRat := by
  unfold qDiv
  rw [qRaw_toRat _ _ (mul_ne_zero ha.ne' hbn)]
  unfold Q.toRat
  have h1 : (a.d : ℚ) ≠ 0 := by exact_mod_cast ha.ne'
  have h2 : (b.d : ℚ) ≠ 0 := by exact_mod_cast hb.ne'
  have h3 : (b.n : ℚ) ≠ 0 := by exact_mod_cast hbn
  push_cast
  field_simp
  all_goals ring

theorem qOfInt_toRat (k : ℤ) : (qOfInt k).toRat = (k : ℚ) := by
  unfold qOfInt Q.toRat
  norm_num

theorem qOfRat_toRat (x : ℚ) : (qOfRat x).toRat = x := by
  unfold qOfRat Q.toRat
  exact_mod_cast Rat.num_div_den x

theorem qLtB_iff {a b : Q} (ha : a.wf) (hb : b.wf) :
    qLtB a b = true ↔ a.toRat < b.toRat := by
  unfold qLtB Q.toRat
  have h1 : (0 : ℚ) < (a.d : ℚ) := by exact_mod_cast ha
  have h2 : (0 : ℚ) < (b.d : ℚ) := by exact_mod_cast hb
  rw [decide_eq_true_iff, div_lt_div_iff h1 h2]
  constructor
  · intro h; exact_mod_cast h
  · intro h; exact_mod_cast h

theorem qLtB_eq_false_iff {a b : Q} (ha : a.wf) (hb : b.wf) :
    qLtB a b = false ↔ ¬ a.toRat < b.toRat := by
  rw [← Bool.not_eq_true, not_iff_not]
  exact qLtB_iff ha hb

theorem qLeB_iff {a b : Q} (ha : a.wf) (hb : b.wf) :
    qLeB a b = true ↔ a.toRat ≤ b.toRat := by
  unfold qLeB Q.toRat
  have h1 : (0 : ℚ) < (a.d : ℚ) := by exact_mod_cast ha
  have h2 : (0 : ℚ) < (b.d : ℚ) := by exact_mod_cast hb
  rw [decide_eq_true_iff, div_le_div_iff h1 h2]
  constructor
  · intro h; exact_mod_cast h
  · intro h; exact_mod_cast h

/-- Truncation toward zero of the value of a `Q` (the implicit integer
conversion in JavaScript's `%`). -/
def qTrunc (q : Q) : ℤ := if 0 ≤ q.n then q.n / q.d else -((-q.n) / q.d)

/-- Model of the JavaScript remainder `x % m`:
`x - m * trunc (x / m)` (the result carries the sign of the dividend). -/
def jsModQ (x m : Q) : Q := qSub x (qMul m (qOfInt (qTrunc (qDiv x m))))

theorem qTrunc_nonneg_bounds {q : Q} (hq : q.wf) (hn : 0 ≤ q.n) :
    (qTrunc q : ℚ) ≤ q.toRat ∧ q.toRat < (qTrunc q : ℚ) + 1 := by
  unfold qTrunc Q.toRat
  rw [if_pos hn]
  have hd : (0 : ℚ) < (q.d : ℚ) := by exact_mod_cast hq
  have hdz : q.d ≠ 0 := hq.ne'
  have hmod1 : 0 ≤ q.n % q.d := Int.emod_nonneg q.n hdz
  have hmod2 : q.n % q.d < q.d := Int.emod_lt_of_pos q.n hq
  have hdecomp : q.d * (q.n / q.d) + q.n % q.d = q.n := Int.ediv_add_emod q.n q.d
  constructor
  · rw [le_div_iff hd]
    have : (q.d : ℚ) * ((q.n / q.d : ℤ) : ℚ) ≤ (q.n : ℚ) := by
      exact_mod_cast (by nlinarith : q.d * (q.n / q.d) ≤ q.n)
    nlinarith
  · rw [div_lt_iff hd]
    have : (q.n : ℚ) < (((q.n / q.d : ℤ) : ℚ) + 1) * (q.d : ℚ) := by
      exact_mod_cast (by nlinarith : q.n < (q.n / q.d + 1) * q.d)
    nlinarith

theorem qTrunc_neg_bound {q : Q} (hq : q.wf) (hn : q.n < 0) :
    q.toRat ≤ (qTrunc q : ℚ) := by
  unfold qTrunc Q.toRat
  rw [if_neg (not_le.mpr hn)]
  have hd : (0 : ℚ) < (q.d : ℚ) := by exact_mod_cast hq
  have hdz : q.d ≠ 0 := hq.ne'
  have hmod1 : 0 ≤ (-q.n) % q.d := Int.emod_nonneg (-q.n) hdz
  have hdecomp : q.d * ((-q.n) / q.d) + (-q.n) % q.d = -q.n := Int.ediv_add_emod (-q.n) q.d
  rw [div_le_iff hd]
  push_cast
  have : q.d * ((-q.n) / q.d) ≤ -q.n := by nlinarith
  have hcast : (q.d : ℚ) * (((-q.n) / q.d : ℤ) : ℚ) ≤ ((-q.n : ℤ) : ℚ) := by
    exact_mod_cast this
  push_cast at hcast
  nlinarith

theorem jsModQ_wf {x m : Q} (hx : x.wf) (hm : m.wf) : (jsModQ x m).wf :=
  qSub_wf hx (qMul_wf hm (qOfInt_wf _))

theorem jsModQ_toRat {x m : Q} (hx : x.wf) (hm : m.wf) :
    (jsModQ x m).toRat = x.toRat - m.toRat * (qTrunc (qDiv x m) : ℚ) := by
  unfold jsModQ
  rw [qSub_toRat hx (qMul_wf hm (qOfInt_wf _)),
    qMul_toRat hm (qOfInt_wf _), qOfInt_toRat]

theorem jsModQ_360_lt {x : Q} (hx : x.wf) :
    (jsModQ x (qOfInt 360)).toRat < 360 := by
  have h360 : (qOfInt 360).wf := qOfInt_wf 360
  have hn : (qOfInt (360 : ℤ)).n ≠ 0 := by norm_num [qOfInt]
  have hdwf : (qDiv x (qOfInt 360)).wf := qDiv_wf hx hn
  have hdval : (qDiv x (qOfInt 360)).toRat = x.toRat / 360 := by
    rw [qDiv_toRat hx h360 hn, qOfInt_toRat]
    norm_num
  rw [jsModQ_toRat hx h360, qOfInt_toRat]
  push_cast
  rcases le_or_lt 0 (qDiv x (qOfInt 360)).n with hge | hlt
  · have hb := (qTrunc_nonneg_bounds hdwf hge).2
    rw [hdval] at hb
    have := (div_lt_iff (by norm_num : (0:ℚ) < 360)).mp hb
    linarith
  · have hb := qTrunc_neg_bound hdwf (by omega)
    rw [hdval] at hb
    have := (div_le_iff (by norm_num : (0:ℚ) < 360)).mp hb
    linarith

theorem gap_check_360_false {x : Q} (hx : x.wf) :
    qLtB (qOfInt 360) (jsModQ x (qOfInt 360)) = false := by
  rw [qLtB_eq_false_iff (qOfInt_wf 360) (jsModQ_wf hx (qOfInt_wf 360)), qOfInt_toRat]
  push_cast
  exact not_lt.mpr (jsModQ_360_lt hx).le

/-! ## Spoke placement engine (Canvas.tsx lines 705-804)

The loop works on the list of spokes sorted by angle and is driven
only by angles, identities and the random stream: the construction of
each new spoke's end point (the border-intersection search of lines
770-790) consumes no randomness and does not feed back into the
control flow, and `curr.end.getAngle(middle)` — read by the clearance
test — equals the spoke's stored angle in exact arithmetic because the
end point lies on the ray from the hub at that angle.  Spokes are thus
represented by their stored angle together with an object identity
`oid` modelling the reference comparison
`nextRadius === startingRadius`. -/

/-- Spoke (`Radius`) as seen by the placement loop. -/
structure PSpoke where
  oid : ℕ
  angle : Q
deriving DecidableEq, Repr

instance : Inhabited PSpoke := ⟨⟨0, ⟨0, 1⟩⟩⟩

/-- Stable sorted insertion for modelling `Array.prototype.sort` with a
`Math.sign`-based comparator (ES2019 sort is stable: ties keep their
original order, and a newly inserted element lands after existing
equal ones). -/
def insertSortedBy {α : Type} (lt : α → α → Bool) (a : α) : List α → List α
  | [] => [a]
  | b :: bs => if lt a b then a :: b :: bs else b :: insertSortedBy lt a bs

/-- Stable ascending sort by the given strict comparator. -/
def sortBy {α : Type} (lt : α → α → Bool) (l : List α) : List α :=
  l.foldl (fun acc a => insertSortedBy lt a acc) []

/-- Model of `spokes.sort(sortByAngle)` (comparator of Canvas.tsx lines
711-713): stable ascending sort by angle. -/
def sortSpokes (l : List PSpoke) : List PSpoke :=
  sortBy (fun a b => qLtB a.angle b.angle) l

/-- Model of `rand(min, max)` (src/utils.tsx lines 269-271):
`Math.random() * (max - min) + min`, reading the stream at `pos`. -/
def randQ (s : ℕ → Q) (pos : ℕ) (lo hi : Q) : Q :=
  qAdd (qMul (s pos) (qSub hi lo)) lo

/-- Insertion before index `k` (model of `splice(k, 0, a)`; `k` is at
most the length whenever the loop calls it). -/
def spliceAt {α : Type} : ℕ → α → List α → List α
  | _, a, [] => [a]
  | 0, a, x :: xs => a :: x :: xs
  | k + 1, a, x :: xs => x :: spliceAt k a xs

/-- Candidate resampling loop of Canvas.tsx lines 756-766: draw
`newAngle = rand(curr.angle, curr.angle + gap)` and redraw while its
circular distance to either neighbour is below
`gap * minRadiusAngleFactor`.  The source `while` has no attempt
bound; the `fuel` argument only makes the model total, with `none`
meaning the loop is still running after `fuel` draws. -/
def resampleLoop (s : ℕ → Q) (minFactor currAngle nextAngle gap : Q) :
    ℕ → ℕ → Option (Q × ℕ)
  | _, 0 => none
  | pos, fuel + 1 =>
    let newAngle := randQ s pos currAngle (qAdd currAngle gap)
    let angleCurrNew := jsModQ (qAdd (qSub newAngle currAngle) (qOfInt 360)) (qOfInt 360)
    let angleNextNew := jsModQ (qAdd (qSub nextAngle newAngle) (qOfInt 360)) (qOfInt 360)
    if qLtB angleCurrNew (qMul gap minFactor) || qLtB angleNextNew (qMul gap minFactor) then
      resampleLoop s minFactor currAngle nextAngle gap (pos + 1) fuel
    else
      some (newAngle, pos + 1)

/-- State of the placement loop: the spoke list being mutated, the
`radii` accumulator of inserted spokes, the loop index `i`, the
position of the next unread random value, and the identity for the
next created `Radius` object. -/
structure PlaceState where
  spokes : List PSpoke
  radii : List PSpoke
  idx : ℕ
  pos : ℕ
  nextOid : ℕ
deriving DecidableEq, Repr

/-- The `while (hasSpace)` loop of Canvas.tsx lines 743-804.  Each
iteration compares the circularly adjacent pair at `i` and `i + 1`
(modulo the current length): if the gap exceeds `maxRadiusAngle` a
resampled spoke is inserted at index `(i + 1) % length` (without
advancing `i`); otherwise `i` advances, and the loop stops once the
pair's successor is the starting radius (reference comparison).
`fuel` bounds the modelled iterations; `none` means the loop has not
terminated within `fuel` steps. -/
def placeLoop (s : ℕ → Q) (maxGap minFactor : Q) (startOid : ℕ) :
    ℕ → PlaceState → Option PlaceState
  | 0, _ => none
  | fuel + 1, st =>
    let len := st.spokes.length
    let curr := st.spokes.getD (st.idx % len) default
    let next := st.spokes.getD ((st.idx + 1) % len) default
    let angleDifference :=
      jsModQ (qAdd (qSub next.angle curr.angle) (qOfInt 360)) (qOfInt 360)
    if qLtB maxGap angleDifference then
      match resampleLoop s minFactor curr.angle next.angle angleDifference st.pos fuel with
      | none => none
      | some (newAngle, pos2) =>
        let newAngle360 := jsModQ (qAdd newAngle (qOfInt 360)) (qOfInt 360)
        let newRadius : PSpoke := ⟨st.nextOid, newAngle360⟩
        placeLoop s maxGap minFactor startOid fuel
          ⟨spliceAt ((st.idx + 1) % len) newRadius st.spokes,
            st.radii ++ [newRadius], st.idx, pos2, st.nextOid + 1⟩
    else
      if next.oid = startOid then
        some ⟨st.spokes, st.radii, st.idx + 1, st.pos, st.nextOid⟩
      else
        placeLoop s maxGap minFactor startOid fuel
          ⟨st.spokes, st.radii, st.idx + 1, st.pos, st.nextOid⟩

/-- Spoke placement (Canvas.tsx lines 733-804): sort the three seed
spokes by angle and run the gap-filling loop from `i = 0`, with the
identity of `spokes[0]` as the starting radius. -/
def placeSpokes (s : ℕ → Q) (maxGap minFactor : Q) (seedA seedB seedC : PSpoke)
    (pos fresh fuel : ℕ) : Option PlaceState :=
  let spokes := sortSpokes [seedA, seedB, seedC]
  let startOid := (spokes.getD 0 default).oid
  placeLoop s maxGap minFactor startOid fuel ⟨spokes, [], 0, pos, fresh⟩

/-- Circular angular gaps of a spoke list, each computed as
`(next.angle - curr.angle + 360) % 360` with wraparound at the end. -/
def circGaps (spokes : List PSpoke) : List Q :=
  (List.range spokes.length).map fun i =>
    jsModQ (qAdd (qSub (spokes.getD ((i + 1) % spokes.length) default).angle
      (spokes.getD i default).angle) (qOfInt 360)) (qOfInt 360)

/-- Whether some circular gap of the angle-sorted spoke list strictly
exceeds `g`. -/
def hasGapAbove (spokes : List PSpoke) (g : Q) : Bool :=
  (circGaps (sortSpokes spokes)).any fun x => qLtB g x

/-! ## Claim C3 — the resample loop has no attempt bound -/

/-- A random stream that keeps returning 0 — a value `Math.random` may
legitimately produce on every call. -/
def zeroStream : ℕ → Q := fun _ => ⟨0, 1⟩

/-- Termination of the resample loop on a given stream and
configuration: some number of draws suffices. -/
def resampleTerminates (s : ℕ → Q) (minFactor currAngle nextAngle gap : Q) (pos : ℕ) : Prop :=
  ∃ fuel, (resampleLoop s minFactor currAngle nextAngle gap pos fuel).isSome

theorem resample_zero_stream_stuck (fuel : ℕ) : ∀ pos,
    resampleLoop zeroStream (qRaw 1 4) (qOfInt 0) (qOfInt 100) (qOfInt 100) pos fuel = none := by
  induction fuel with
  | zero => intro pos; rfl
  | succ n ih =>
    intro pos
    simp only [resampleLoop]
    have hz : zeroStream pos = (⟨0, 1⟩ : Q) := rfl
    have hr : randQ zeroStream pos (qOfInt 0) (qAdd (qOfInt 0) (qOfInt 100)) = ⟨0, 1⟩ := by
      unfold randQ
      rw [hz]
      decide
    rw [hr]
    split
    · exact ih (pos + 1)
    · rename_i hcond
      exact absurd (by decide) hcond

/-- C3 counterexample: the resample loop of Canvas.tsx lines 756-766
has no attempt bound and no "placement exhausted" error path.  On the
configuration `curr.angle = 0`, `next.angle = 100`, `gap = 100`,
`minClearanceFactor = 1/4` — an ordinary reachable gap state — a
stream that keeps returning 0 makes every candidate equal
`curr.angle`, whose clearance 0 is below `gap/4 = 25`, so the loop
rejects forever: no number of draws makes it return. -/
theorem resample_no_attempt_bound :
    ¬ resampleTerminates zeroStream (qRaw 1 4) (qOfInt 0) (qOfInt 100) (qOfInt 100) 0 := by
  rintro ⟨fuel, h⟩
  rw [resample_zero_stream_stuck fuel 0] at h
  simp at h

/-- C3 amended: the resample loop simply redraws until the stream
yields a candidate meeting the clearance constraint — whenever it
returns a candidate, both circular distances to the neighbours pass
the `gap * minClearanceFactor` test (the loop's own guard is false on
the returned draw). -/
theorem resample_success_clearance (s : ℕ → Q) (minFactor currAngle nextAngle gap : Q) :
    ∀ fuel pos c pos2,
    resampleLoop s minFactor currAngle nextAngle gap pos fuel = some (c, pos2) →
    qLtB (jsModQ (qAdd (qSub c currAngle) (qOfInt 360)) (qOfInt 360))
        (qMul gap minFactor) = false ∧
    qLtB (jsModQ (qAdd (qSub nextAngle c) (qOfInt 360)) (qOfInt 360))
        (qMul gap minFactor) = false := by
  intro fuel
  induction fuel with
  | zero =>
    intro pos c pos2 h
    exact absurd h (by simp [resampleLoop])
  | succ n ih =>
    intro pos c pos2 h
    simp only [resampleLoop] at h
    split at h
    · exact ih _ _ _ h
    · rename_i hcond
      rw [Option.some_inj, Prod.mk.injEq] at h
      obtain ⟨hc, _⟩ := h
      rw [Bool.or_eq_true] at hcond
      push_neg at hcond
      obtain ⟨hc1, hc2⟩ := hcond
      rw [← hc]
      exact ⟨Bool.not_eq_true _ ▸ hc1, Bool.not_eq_true _ ▸ hc2⟩

/-- A stream that keeps returning 1/2. -/
def halfStream : ℕ → Q := fun _ => ⟨1, 2⟩

/-- Witness for C3 (amended): on the same configuration, the constant
1/2 stream is accepted on the first draw with candidate 50, and the
returned candidate passes both clearance tests. -/
theorem resample_success_clearance_witness :
    resampleLoop halfStream (qRaw 1 4) (qOfInt 0) (qOfInt 100) (qOfInt 100) 0 1 =
      some (⟨50, 1⟩, 1) ∧
    qLtB (jsModQ (qAdd (qSub ⟨50, 1⟩ (qOfInt 0)) (qOfInt 360)) (qOfInt 360))
        (qMul (qOfInt 100) (qRaw 1 4)) = false ∧
    qLtB (jsModQ (qAdd (qSub (qOfInt 100) ⟨50, 1⟩) (qOfInt 360)) (qOfInt 360))
        (qMul (qOfInt 100) (qRaw 1 4)) = false := by
  have hrun : resampleLoop halfStream (qRaw 1 4) (qOfInt 0) (qOfInt 100) (qOfInt 100) 0 1 =
      some (⟨50, 1⟩, 1) := by decide
  exact ⟨hrun, resample_success_clearance halfStream (qRaw 1 4) (qOfInt 0) (qOfInt 100)
    (qOfInt 100) 1 0 ⟨50, 1⟩ 1 hrun⟩

/-! ## Claim C9 — maxGapDegrees = 360 keeps exactly the seed spokes -/

theorem insertSortedBy_perm {α : Type} (lt : α → α → Bool) (a : α) (l : List α) :
    List.Perm (insertSortedBy lt a l) (a :: l) := by
  induction l with
  | nil => exact List.Perm.refl _
  | cons b bs ih =>
    unfold insertSortedBy
    split
    · exact List.Perm.refl _
    · exact (List.Perm.cons b ih).trans (List.Perm.swap a b bs)

theorem sortBy_fold_perm {α : Type} (lt : α → α → Bool) (l : List α) : ∀ acc,
    List.Perm (l.foldl (fun acc a => insertSortedBy lt a acc) acc) (acc ++ l) := by
  induction l with
  | nil => intro acc; simp
  | cons x xs ih =>
    intro acc
    have h1 : (x :: xs).foldl (fun acc a => insertSortedBy lt a acc) acc
        = xs.foldl (fun acc a => insertSortedBy lt a acc) (insertSortedBy lt x acc) := rfl
    rw [h1]
    refine (ih (insertSortedBy lt x acc)).trans ?_
    refine ((insertSortedBy_perm lt x acc).append_right xs).trans ?_
    exact List.perm_middle.symm

theorem sortBy_perm {α : Type} (lt : α → α → Bool) (l : List α) :
    List.Perm (sortBy lt l) l := by
  have := sortBy_fold_perm lt l []
  simpa [sortBy] using this

theorem sortSpokes_perm (l : List PSpoke) : List.Perm (sortSpokes l) l :=
  sortBy_perm _ l

theorem placeLoop_maxGap360 (s : ℕ → Q) (minFactor : Q) (a b c : PSpoke)
    (hwa : a.angle.wf) (hwb : b.angle.wf) (hwc : c.angle.wf)
    (hba : b.oid ≠ a.oid) (hca : c.oid ≠ a.oid) (radii : List PSpoke) (pos fresh : ℕ) :
    placeLoop s (qOfInt 360) minFactor a.oid 4 ⟨[a, b, c], radii, 0, pos, fresh⟩ =
      some ⟨[a, b, c], radii, 3, pos, fresh⟩ := by
  have g1 := gap_check_360_false (qAdd_wf (qSub_wf hwb hwa) (qOfInt_wf 360))
  have g2 := gap_check_360_false (qAdd_wf (qSub_wf hwc hwb) (qOfInt_wf 360))
  have g3 := gap_check_360_false (qAdd_wf (qSub_wf hwa hwc) (qOfInt_wf 360))
  simp [placeLoop, List.getD, g1, g2, g3, hba, hca]

/-- C9: with `maxGapDegrees = 360` no circular gap — each computed as
`(next.angle - curr.angle + 360) % 360`, hence always below 360 — ever
exceeds the threshold, so the placement loop advances through the three
sorted seed pairs, terminates when it comes back to the starting
radius, and inserts nothing: the final list is exactly the three seed
spokes (sorted), for every random stream. -/
theorem placement_maxGap360_seeds_only (s : ℕ → Q) (minFactor : Q)
    (s1 s2 s3 : PSpoke) (h1 : s1.angle.wf) (h2 : s2.angle.wf) (h3 : s3.angle.wf)
    (hd : ([s1, s2, s3].map PSpoke.oid).Nodup) (pos fresh : ℕ) :
    placeSpokes s (qOfInt 360) minFactor s1 s2 s3 pos fresh 4 =
      some ⟨sortSpokes [s1, s2, s3], [], 3, pos, fresh⟩ := by
  have hperm : List.Perm (sortSpokes [s1, s2, s3]) [s1, s2, s3] := sortSpokes_perm _
  have hlen : (sortSpokes [s1, s2, s3]).length = 3 := by
    rw [hperm.length_eq]
    rfl
  obtain ⟨a, b, c, habc⟩ := List.length_eq_three.mp hlen
  have hnd : ((sortSpokes [s1, s2, s3]).map PSpoke.oid).Nodup :=
    (hperm.map PSpoke.oid).nodup_iff.mpr (by simpa using hd)
  rw [habc] at hnd
  simp only [List.map_cons, List.map_nil, List.nodup_cons, List.mem_cons,
    List.mem_singleton, List.not_mem_nil, or_false, not_or] at hnd
  have hba : b.oid ≠ a.oid := fun h => hnd.1.1 h.symm
  have hca : c.oid ≠ a.oid := fun h => hnd.1.2 h.symm
  have hwf : ∀ p ∈ sortSpokes [s1, s2, s3], p.angle.wf := by
    intro p hp
    have hp' : p ∈ [s1, s2, s3] := hperm.mem_iff.mp hp
    simp only [List.mem_cons, List.mem_singleton, List.not_mem_nil, or_false] at hp'
    rcases hp' with h | h | h <;> subst h <;> assumption
  have hwa : a.angle.wf := hwf a (habc ▸ List.mem_cons_self a [b, c])
  have hwb : b.angle.wf := hwf b (habc ▸ List.mem_cons_of_mem a (List.mem_cons_self b [c]))
  have hwc : c.angle.wf := hwf c (habc ▸ List.mem_cons_of_mem a
    (List.mem_cons_of_mem b (List.mem_cons_self c [])))
  unfold placeSpokes
  rw [habc]
  exact placeLoop_maxGap360 s minFactor a b c hwa hwb hwc hba hca [] pos fresh

/-- Witness for C9 at seed spokes with angles 10°, 200°, 340°
(identities 0, 1, 2) and the constant-zero stream. -/
theorem placement_maxGap360_seeds_only_witness :
    (Q.wf (qOfInt 10) ∧ Q.wf (qOfInt 200) ∧ Q.wf (qOfInt 340)) ∧
    (([⟨0, qOfInt 10⟩, ⟨1, qOfInt 200⟩, ⟨2, qOfInt 340⟩] : List PSpoke).map PSpoke.oid).Nodup ∧
    placeSpokes zeroStream (qOfInt 360) (qRaw 1 4) ⟨0, qOfInt 10⟩ ⟨1, qOfInt 200⟩
        ⟨2, qOfInt 340⟩ 0 3 4 =
      some ⟨sortSpokes [⟨0, qOfInt 10⟩, ⟨1, qOfInt 200⟩, ⟨2, qOfInt 340⟩], [], 3, 0, 3⟩ := by
  refine ⟨⟨?_, ?_, ?_⟩, ?_, ?_⟩
  · show (0 : ℤ) < 1; norm_num
  · show (0 : ℤ) < 1; norm_num
  · show (0 : ℤ) < 1; norm_num
  · decide
  · exact placement_maxGap360_seeds_only zeroStream (qRaw 1 4) ⟨0, qOfInt 10⟩
      ⟨1, qOfInt 200⟩ ⟨2, qOfInt 340⟩ (by show (0:ℤ) < 1; norm_num)
      (by show (0:ℤ) < 1; norm_num) (by show (0:ℤ) < 1; norm_num) (by decide) 0 3

/-! ## Auxiliary spiral stage (Canvas.tsx lines 806-855)

The spiral walks the spokes circularly; each visited spoke receives the
crossing point through `auxPoints.unshift(nextPoint)` — a prepend —
while the very first point is `push`ed onto the starting spoke's empty
list.  To state the ordering claim, the model additionally accumulates
`trace`, the `(spoke index, point)` records in traversal order; `trace`
is bookkeeping only and influences nothing. -/

/-- 2D vector over the kernel-computable scalar (mirror of `Vector`
for the executable pipeline). -/
structure VecB where
  x : Q
  y : Q
deriving DecidableEq, Repr

instance : Inhabited VecB := ⟨⟨⟨0, 1⟩, ⟨0, 1⟩⟩⟩

/-- Mirror of the `Radius` class (src/utils.tsx lines 201-214) for the
executable pipeline: a line (start, end) with the stored angle and the
two crossing-point lists. -/
structure RadiusB where
  oid : ℕ
  start : VecB
  endp : VecB
  angle : Q
  auxPoints : List VecB
  capPoints : List VecB
deriving DecidableEq, Repr

instance : Inhabited RadiusB := ⟨⟨0, default, default, ⟨0, 1⟩, [], []⟩⟩

/-- Cached `length` of a `Radius`: `sq ((ex-sx)^2 + (ey-sy)^2)`, with
`sq` standing for `Math.sqrt` over the executable scalar. -/
def lengthB (sq : Q → Q) (r : RadiusB) : Q :=
  sq (qAdd (qMul (qSub r.endp.x r.start.x) (qSub r.endp.x r.start.x))
    (qMul (qSub r.endp.y r.start.y) (qSub r.endp.y r.start.y)))

/-- Mirror of `Line.pointAtAbs`:
`start + (end - start) * (position / length)`. -/
def pointAtAbsB (sq : Q → Q) (r : RadiusB) (position : Q) : VecB :=
  let pct := qDiv position (lengthB sq r)
  ⟨qAdd r.start.x (qMul (qSub r.endp.x r.start.x) pct),
   qAdd r.start.y (qMul (qSub r.endp.y r.start.y) pct)⟩

/-- Mirror of `fuzz(num, randomFactor)` (src/utils.tsx lines 248-250):
`num + num * (randomFactor * (random * 2 - 1))`. -/
def fuzzQ (s : ℕ → Q) (pos : ℕ) (num factor : Q) : Q :=
  qAdd num (qMul num (qMul factor (qSub (qMul (s pos) (qOfInt 2)) (qOfInt 1))))

/-- Floor of the value (`Math.floor`); `Int` division by the positive
denominator is exactly floor division. -/
def qFloor (q : Q) : ℤ := q.n / q.d

/-- Mirror of `randInt(min, max)` (src/utils.tsx lines 279-283) at the
integer bounds the generator uses:
`Math.floor(random * (max - min) + min)`. -/
def randIntQ (s : ℕ → Q) (pos : ℕ) (lo hi : ℤ) : ℤ :=
  qFloor (qAdd (qMul (s pos) (qSub (qOfInt hi) (qOfInt lo))) (qOfInt lo))

/-- Mirror of the circular index `((auxIndex % len) + len) % len`
(Canvas.tsx line 837); JavaScript `%` is the truncating remainder
`Int.tmod`. -/
def circIndex (auxIndex : ℤ) (len : ℕ) : ℕ :=
  (((auxIndex.tmod (len : ℤ)) + (len : ℤ)).tmod (len : ℤ)).toNat

/-- In-place update of the element at an index (the mutation
`spokes[auxI].auxPoints.unshift(...)` of the source). -/
def updateAt {α : Type} : ℕ → (α → α) → List α → List α
  | _, _, [] => []
  | 0, f, x :: xs => f x :: xs
  | k + 1, f, x :: xs => x :: updateAt k f xs

/-- State of the auxiliary-spiral walk. -/
structure AuxState where
  spokes : List RadiusB
  auxiliarySpiral : List (VecB × VecB)
  auxIndex : ℤ
  pointOnSpiral : Q
  prevPoint : VecB
  pos : ℕ
  terminalIndex : ℕ
  trace : List (ℕ × VecB)
deriving DecidableEq, Repr

/-- The `while (pointOnSpiral < spokes[auxI].length)` loop of
Canvas.tsx lines 831-855: step the index in the chosen direction, grow
and fuzz the spiral distance (clamped to the spoke length), prepend the
new crossing point to that spoke's `auxPoints` (`unshift`), emit the
spiral segment, and remember the terminal spoke when the unfuzzed
distance reaches the spoke length.  `fuel` bounds the modelled
iterations. -/
def auxLoop (sq : Q → Q) (s : ℕ → Q) (auxDir : Bool) (auxIncrement : Q) :
    ℕ → AuxState → Option AuxState
  | 0, _ => none
  | fuel + 1, st =>
    let len := st.spokes.length
    let auxI := circIndex st.auxIndex len
    if qLtB st.pointOnSpiral (lengthB sq (st.spokes.getD auxI default)) then
      let auxIndex2 : ℤ := if auxDir then st.auxIndex + 1 else st.auxIndex - 1
      let pointOnSpiral2 := qAdd st.pointOnSpiral auxIncrement
      let auxI2 := circIndex auxIndex2 len
      let fuzzedPoint := fuzzQ s st.pos pointOnSpiral2 (qRaw 5 100)
      let spoke2 := st.spokes.getD auxI2 default
      let fp := if qLtB (lengthB sq spoke2) fuzzedPoint then lengthB sq spoke2 else fuzzedPoint
      let nextPoint := pointAtAbsB sq spoke2 fp
      let spokes2 := updateAt auxI2
        (fun r => ⟨r.oid, r.start, r.endp, r.angle, nextPoint :: r.auxPoints, r.capPoints⟩)
        st.spokes
      let terminal2 := if qLeB (lengthB sq spoke2) pointOnSpiral2 then auxI2 else st.terminalIndex
      auxLoop sq s auxDir auxIncrement fuel
        ⟨spokes2, st.auxiliarySpiral ++ [(st.prevPoint, nextPoint)], auxIndex2,
          pointOnSpiral2, nextPoint, st.pos + 1, terminal2,
          st.trace ++ [(auxI2, nextPoint)]⟩
    else
      some st

/-- Result of the auxiliary-spiral stage. -/
structure AuxResult where
  spokes : List RadiusB
  auxiliarySpiral : List (VecB × VecB)
  terminalIndex : ℕ
  pos : ℕ
  trace : List (ℕ × VecB)
deriving DecidableEq, Repr

/-- The auxiliary-spiral stage (Canvas.tsx lines 806-855): re-sort the
spokes by angle, take the shortest spoke's length as spacing
reference, draw the starting spoke index and the direction, `push` the
first point at one ring width onto the starting spoke, then run the
walk. -/
def auxStage (sq : Q → Q) (s : ℕ → Q) (auxRings : ℕ) (spokesIn : List RadiusB)
    (pos fuel : ℕ) : Option AuxResult :=
  let spokes := sortBy (fun a b => qLtB a.angle b.angle) spokesIn
  let spokesByLength := sortBy (fun a b => qLtB (lengthB sq a) (lengthB sq b)) spokes
  match spokesByLength with
  | [] => none
  | shortest :: _ =>
    let shortestSpokeLength := lengthB sq shortest
    let len := spokes.length
    let startSpokeIndex := (randIntQ s pos 0 (len : ℤ)).toNat
    let auxDir := qLtB (s (pos + 1)) (qRaw 1 2)
    let auxWidth := qDiv (qOfInt 1) (qOfInt (auxRings : ℤ))
    let auxIncrement := qMul (qDiv auxWidth (qOfInt (len : ℤ))) shortestSpokeLength
    let pointOnSpiral := qMul auxWidth shortestSpokeLength
    let startSpoke := spokes.getD startSpokeIndex default
    let prevPoint := pointAtAbsB sq startSpoke pointOnSpiral
    let spokes1 := updateAt startSpokeIndex
      (fun r => ⟨r.oid, r.start, r.endp, r.angle, r.auxPoints ++ [prevPoint], r.capPoints⟩)
      spokes
    match auxLoop sq s auxDir auxIncrement fuel
      ⟨spokes1, [], (startSpokeIndex : ℤ), pointOnSpiral, prevPoint, pos + 2,
        startSpokeIndex, [(startSpokeIndex, prevPoint)]⟩ with
    | none => none
    | some st => some ⟨st.spokes, st.auxiliarySpiral, st.terminalIndex, st.pos, st.trace⟩

theorem updateAt_length {α : Type} (k : ℕ) (f : α → α) (l : List α) :
    (updateAt k f l).length = l.length := by
  induction l generalizing k with
  | nil => cases k <;> rfl
  | cons x xs ih =>
    cases k with
    | zero => rfl
    | succ k => simp [updateAt, ih]

theorem getD_updateAt_self {α : Type} (k : ℕ) (f : α → α) (l : List α) (d : α)
    (hk : k < l.length) : (updateAt k f l).getD k d = f (l.getD k d) := by
  induction l generalizing k with
  | nil => simp at hk
  | cons x xs ih =>
    cases k with
    | zero => rfl
    | succ k =>
      simp only [updateAt, List.getD_cons_succ]
      exact ih k (by simpa using hk)

theorem getD_updateAt_ne {α : Type} (k j : ℕ) (f : α → α) (l : List α) (d : α)
    (hjk : j ≠ k) : (updateAt k f l).getD j d = l.getD j d := by
  induction l generalizing k j with
  | nil => cases k <;> rfl
  | cons x xs ih =>
    cases k with
    | zero =>
      cases j with
      | zero => exact absurd rfl hjk
      | succ j => rfl
    | succ k =>
      cases j with
      | zero => rfl
      | succ j =>
        simp only [updateAt, List.getD_cons_succ]
        exact ih k j (fun h => hjk (by rw [h]))

theorem tmod_lower (a : ℤ) {b : ℤ} (hb : 0 < b) : -b < a.tmod b := by
  rcases le_or_lt 0 a with ha | ha
  · have := Int.tmod_nonneg b ha
    linarith
  · rcases a with m | m
    · exact absurd ha (not_lt.mpr (Int.ofNat_nonneg m))
    · rcases b with n | n
      · have hn0 : 0 < n := by
          rcases Nat.eq_zero_or_pos n with h0 | h0
          · subst h0
            simp at hb
          · exact h0
        have hmod : m.succ % n < n := Nat.mod_lt _ hn0
        have hrw : (Int.negSucc m).tmod (Int.ofNat n) = -Int.ofNat (m.succ % n) := rfl
        show -(Int.ofNat n) < (Int.negSucc m).tmod (Int.ofNat n)
        rw [hrw]
        exact neg_lt_neg (Int.ofNat_lt.mpr hmod)
      · exact absurd hb (not_lt.mpr (le_of_lt (Int.negSucc_lt_zero n)))

theorem circIndex_lt (z : ℤ) {len : ℕ} (hlen : 0 < len) : circIndex z len < len := by
  unfold circIndex
  have hl : (0 : ℤ) < (len : ℤ) := by exact_mod_cast hlen
  have hnn : 0 ≤ z.tmod (len : ℤ) + (len : ℤ) := by
    have := tmod_lower z hl
    linarith
  have hfin : (z.tmod (len : ℤ) + (len : ℤ)).tmod (len : ℤ) < (len : ℤ) :=
    Int.tmod_lt_of_pos _ hl
  have hfin0 : 0 ≤ (z.tmod (len : ℤ) + (len : ℤ)).tmod (len : ℤ) := Int.tmod_nonneg _ hnn
  omega

theorem qFloor_bounds {q : Q} (hq : q.wf) :
    (qFloor q : ℚ) ≤ q.toRat ∧ q.toRat < (qFloor q : ℚ) + 1 := by
  unfold qFloor Q.toRat
  have hd : (0 : ℚ) < (q.d : ℚ) := by exact_mod_cast hq
  have hdz : q.d ≠ 0 := hq.ne'
  have hmod1 : 0 ≤ q.n % q.d := Int.emod_nonneg q.n hdz
  have hmod2 : q.n % q.d < q.d := Int.emod_lt_of_pos q.n hq
  have hdecomp : q.d * (q.n / q.d) + q.n % q.d = q.n := Int.ediv_add_emod q.n q.d
  constructor
  · rw [le_div_iff hd]
    have h : q.d * (q.n / q.d) ≤ q.n := by nlinarith
    have hcast : (q.d : ℚ) * ((q.n / q.d : ℤ) : ℚ) ≤ (q.n : ℚ) := by exact_mod_cast h
    nlinarith
  · rw [div_lt_iff hd]
    have h : q.n < (q.n / q.d + 1) * q.d := by nlinarith
    have hcast : (q.n : ℚ) < (((q.n / q.d : ℤ) : ℚ) + 1) * (q.d : ℚ) := by exact_mod_cast h
    nlinarith

theorem randIntQ_lt (s : ℕ → Q) (pos : ℕ) (len : ℕ) (hlen : 0 < len)
    (hw : (s pos).wf) (h0 : 0 ≤ (s pos).toRat) (h1 : (s pos).toRat < 1) :
    (randIntQ s pos 0 (len : ℤ)).toNat < len := by
  unfold randIntQ
  have hsubwf : (qSub (qOfInt (len : ℤ)) (qOfInt 0)).wf := qSub_wf (qOfInt_wf _) (qOfInt_wf _)
  have hmulwf : (qMul (s pos) (qSub (qOfInt (len : ℤ)) (qOfInt 0))).wf := qMul_wf hw hsubwf
  have hvwf : (qAdd (qMul (s pos) (qSub (qOfInt (len : ℤ)) (qOfInt 0))) (qOfInt 0)).wf :=
    qAdd_wf hmulwf (qOfInt_wf _)
  have hval : (qAdd (qMul (s pos) (qSub (qOfInt (len : ℤ)) (qOfInt 0))) (qOfInt 0)).toRat =
      (s pos).toRat * (len : ℚ) := by
    rw [qAdd_toRat hmulwf (qOfInt_wf _), qMul_toRat hw hsubwf,
      qSub_toRat (qOfInt_wf _) (qOfInt_wf _), qOfInt_toRat, qOfInt_toRat]
    push_cast
    ring
  have hb := qFloor_bounds hvwf
  rw [hval] at hb
  have hlenq : (0 : ℚ) < (len : ℚ) := by exact_mod_cast hlen
  have hup : (s pos).toRat * (len : ℚ) < (len : ℚ) := by nlinarith
  have hfl : (qFloor (qAdd (qMul (s pos) (qSub (qOfInt (len : ℤ)) (qOfInt 0))) (qOfInt 0)) : ℚ) <
      (len : ℚ) := lt_of_le_of_lt hb.1 hup
  have hflz : qFloor (qAdd (qMul (s pos) (qSub (qOfInt (len : ℤ)) (qOfInt 0))) (qOfInt 0)) <
      (len : ℤ) := by exact_mod_cast hfl
  omega

/-- Ordering invariant of the spiral walk: every spoke's `auxPoints` is
the reverse of the crossing points recorded for it in traversal order. -/
def auxInv (st : AuxState) : Prop :=
  ∀ j, (st.spokes.getD j default).auxPoints =
    ((st.trace.filter (fun p => p.1 = j)).map Prod.snd).reverse

theorem auxLoop_preserves_inv (sq : Q → Q) (s : ℕ → Q) (auxDir : Bool) (auxIncrement : Q) :
    ∀ fuel st st', auxLoop sq s auxDir auxIncrement fuel st = some st' →
    st.spokes ≠ [] → auxInv st → auxInv st' := by
  intro fuel
  induction fuel with
  | zero =>
    intro st st' h
    exact absurd h (by simp [auxLoop])
  | succ n ih =>
    intro st st' h hne hinv
    simp only [auxLoop] at h
    split at h
    · -- the loop body ran once and recursed
      refine ih _ _ h ?_ ?_
      · -- updateAt preserves length, so the spoke list stays nonempty
        intro h0
        apply hne
        have := congrArg List.length h0
        rw [updateAt_length] at this
        exact List.length_eq_zero.mp this
      · -- the step prepends the new point and appends the trace record
        intro j
        have hlen : 0 < st.spokes.length := by
          cases hsp : st.spokes with
          | nil => exact absurd hsp hne
          | cons a l => simp [hsp]
        have hi2 : circIndex (if auxDir then st.auxIndex + 1 else st.auxIndex - 1)
            st.spokes.length < st.spokes.length := circIndex_lt _ hlen
        by_cases hj : j = circIndex (if auxDir then st.auxIndex + 1 else st.auxIndex - 1)
            st.spokes.length
        · subst hj
          rw [getD_updateAt_self _ _ _ _ hi2]
          simp only [List.filter_append, List.map_append, List.reverse_append]
          rw [hinv]
          simp
        · rw [getD_updateAt_ne _ _ _ _ _ hj]
          simp only [List.filter_append, List.map_append, List.reverse_append]
          rw [hinv]
          simp [List.filter_cons, hj, Ne.symm hj]
    · -- exit: the state is returned unchanged
      rw [Option.some_inj] at h
      exact h ▸ hinv

/-- C5 amended: after the auxiliary-spiral stage (entered with empty
`auxPoints` on every spoke, as the placement stage produces them), each
spoke's `auxPoints` holds exactly the points where the spiral crossed
that spoke, in REVERSE traversal order: every crossing is added with
`unshift` (prepend), so the most recently recorded crossing is first in
the list and the first recorded crossing is last.  The stream
hypotheses state the `Math.random` contract (well-formed values in
`[0, 1)`) used for the starting-index draw. -/
theorem auxStage_points_reverse (sq : Q → Q) (s : ℕ → Q) (auxRings : ℕ)
    (spokesIn : List RadiusB) (pos fuel : ℕ) (res : AuxResult)
    (hemp : ∀ r ∈ spokesIn, r.auxPoints = [])
    (hw : (s pos).wf) (h0 : 0 ≤ (s pos).toRat) (h1 : (s pos).toRat < 1)
    (hrun : auxStage sq s auxRings spokesIn pos fuel = some res) :
    ∀ j, (res.spokes.getD j default).auxPoints =
      ((res.trace.filter (fun p => p.1 = j)).map Prod.snd).reverse := by
  simp only [auxStage] at hrun
  split at hrun
  · exact absurd hrun (by simp)
  · rename_i shortest rest hsbl
    set L := sortBy (fun a b => qLtB a.angle b.angle) spokesIn with hLdef
    set k := (randIntQ s pos 0 (L.length : ℤ)).toNat with hkdef
    set w := qMul (qDiv (qOfInt 1) (qOfInt (auxRings : ℤ))) (lengthB sq shortest) with hwdef
    set p0 := pointAtAbsB sq (L.getD k default) w with hp0def
    split at hrun
    · exact absurd hrun (by simp)
    · rename_i st hloop
      rw [Option.some_inj] at hrun
      subst hrun
      have hlen : 0 < L.length := by
        have hperm := sortBy_perm (fun a b : RadiusB =>
          qLtB (lengthB sq a) (lengthB sq b)) L
        have hle := hperm.length_eq
        rw [hsbl] at hle
        simp at hle
        omega
      have hidx : k < L.length := by
        rw [hkdef]
        exact randIntQ_lt s pos L.length hlen hw h0 h1
      have hmem0 : ∀ r ∈ L, r.auxPoints = [] := by
        intro r hr
        exact hemp r ((sortBy_perm _ spokesIn).mem_iff.mp hr)
      have hinit : auxInv ⟨updateAt k
          (fun r => ⟨r.oid, r.start, r.endp, r.angle,
            r.auxPoints ++ [p0], r.capPoints⟩) L, [],
          (k : ℤ), w, p0, pos + 2, k, [(k, p0)]⟩ := by
        intro j
        by_cases hj : j = k
        · subst hj
          rw [getD_updateAt_self _ _ _ _ hidx]
          have hmem : L.getD k default ∈ L := by
            rw [List.getD_eq_getElem _ _ hidx]
            exact List.getElem_mem _
          have hek : (L.getD k default).auxPoints = [] := hmem0 _ hmem
          show (L.getD k default).auxPoints ++ [p0] =
            (([((k : ℕ), p0)].filter (fun p => p.1 = k)).map Prod.snd).reverse
          rw [hek]
          simp
        · rw [getD_updateAt_ne _ _ _ _ _ hj]
          have hr : (L.getD j default).auxPoints = [] := by
            rcases lt_or_le j L.length with hlt | hge
            · have hmem : L.getD j default ∈ L := by
                rw [List.getD_eq_getElem _ _ hlt]
                exact List.getElem_mem _
              exact hmem0 _ hmem
            · rw [List.getD_eq_default _ _ hge]
              rfl
          have hkj : ¬ (k = j) := fun h => hj h.symm
          have hfe : ([((k : ℕ), p0)].filter (fun p => p.1 = j)) = [] := by
            simp [List.filter_cons, hkj]
          simp only [hfe, List.map_nil, List.reverse_nil]
          exact hr
      have hfin := auxLoop_preserves_inv sq s
        (qLtB (s (pos + 1)) (qRaw 1 2))
        (qMul (qDiv (qDiv (qOfInt 1) (qOfInt (auxRings : ℤ)))
          (qOfInt (L.length : ℤ))) (lengthB sq shortest))
        fuel _ st hloop ?_ hinit
      · exact hfin
      · intro h0'
        have hlc := congrArg List.length h0'
        rw [updateAt_length] at hlc
        simp only [List.length_nil] at hlc
        omega

/-- Executable square root over the custom scalar: exact on perfect
squares (numerator and denominator), `0` elsewhere — the demo web only
ever takes square roots of perfect squares, where this agrees with
`Math.sqrt`. -/
def qSqrtB (q : Q) : Q :=
  let sn := sqrtN q.n.toNat q.n.toNat
  let sd := sqrtN q.d.toNat q.d.toNat
  if 0 ≤ q.n ∧ sn * sn = q.n.toNat ∧ sd * sd = q.d.toNat
  then qRaw (sn : ℤ) (sd : ℤ)
  else ⟨0, 1⟩

/-- Three demo spokes from the hub `(0,0)` to `(5,0)`, `(0,5)` and
`(-5,0)`, with their angles `0`, `90`, `180`; every length is the
perfect square root of `25`. -/
def demoSpokes : List RadiusB :=
  [⟨0, ⟨⟨0, 1⟩, ⟨0, 1⟩⟩, ⟨⟨5, 1⟩, ⟨0, 1⟩⟩, ⟨0, 1⟩, [], []⟩,
   ⟨1, ⟨⟨0, 1⟩, ⟨0, 1⟩⟩, ⟨⟨0, 1⟩, ⟨5, 1⟩⟩, ⟨90, 1⟩, [], []⟩,
   ⟨2, ⟨⟨0, 1⟩, ⟨0, 1⟩⟩, ⟨⟨-5, 1⟩, ⟨0, 1⟩⟩, ⟨180, 1⟩, [], []⟩]

/-- Shorthand for a demo point with rational coordinates `xn/xd`,
`yn/yd`. -/
def vq (xn xd yn yd : ℤ) : VecB := ⟨⟨xn, xd⟩, ⟨yn, yd⟩⟩

/-- The full result of the auxiliary-spiral stage on the demo web with
the constant stream `1/2` (start index 1, decreasing direction, no
fuzz): the spiral visits the spokes in the order
1,0,2,1,0,2,... at distances 1, 4/3, 5/3, 2, ... and stops when it
reaches the end of spoke 1 at distance 5. -/
def demoRes : AuxResult :=
  ⟨[⟨0, vq 0 1 0 1, vq 5 1 0 1, ⟨0, 1⟩,
      [vq 13 3 0 1, vq 10 3 0 1, vq 7 3 0 1, vq 4 3 0 1], []⟩,
    ⟨1, vq 0 1 0 1, vq 0 1 5 1, ⟨90, 1⟩,
      [vq 0 1 5 1, vq 0 1 4 1, vq 0 1 3 1, vq 0 1 2 1, vq 0 1 1 1], []⟩,
    ⟨2, vq 0 1 0 1, vq (-5) 1 0 1, ⟨180, 1⟩,
      [vq (-14) 3 0 1, vq (-11) 3 0 1, vq (-8) 3 0 1, vq (-5) 3 0 1], []⟩],
   [(vq 0 1 1 1, vq 4 3 0 1), (vq 4 3 0 1, vq (-5) 3 0 1),
    (vq (-5) 3 0 1, vq 0 1 2 1), (vq 0 1 2 1, vq 7 3 0 1),
    (vq 7 3 0 1, vq (-8) 3 0 1), (vq (-8) 3 0 1, vq 0 1 3 1),
    (vq 0 1 3 1, vq 10 3 0 1), (vq 10 3 0 1, vq (-11) 3 0 1),
    (vq (-11) 3 0 1, vq 0 1 4 1), (vq 0 1 4 1, vq 13 3 0 1),
    (vq 13 3 0 1, vq (-14) 3 0 1), (vq (-14) 3 0 1, vq 0 1 5 1)],
   1, 14,
   [(1, vq 0 1 1 1), (0, vq 4 3 0 1), (2, vq (-5) 3 0 1),
    (1, vq 0 1 2 1), (0, vq 7 3 0 1), (2, vq (-8) 3 0 1),
    (1, vq 0 1 3 1), (0, vq 10 3 0 1), (2, vq (-11) 3 0 1),
    (1, vq 0 1 4 1), (0, vq 13 3 0 1), (2, vq (-14) 3 0 1),
    (1, vq 0 1 5 1)]⟩

theorem halfStream_unit_interval (n : ℕ) :
    0 ≤ (halfStream n).toRat ∧ (halfStream n).toRat < 1 := by
  unfold halfStream Q.toRat
  norm_num

/-- C5 counterexample: on the demo web the spiral crosses spoke 1 (the
starting spoke) five times, recording the crossings bottom-up
`(0,1), (0,2), (0,3), (0,4), (0,5)` — the trace restricted to spoke 1 —
but the spoke's final `auxPoints` list is `(0,5), (0,4), (0,3), (0,2),
(0,1)`: the first crossing recorded is LAST, not first, because every
crossing after the initial `push` is added with `unshift`. -/
theorem auxStage_first_recorded_is_last :
    auxStage qSqrtB halfStream 5 demoSpokes 0 20 = some demoRes ∧
    ((demoRes.trace.filter (fun p => p.1 = 1)).map Prod.snd) =
      [vq 0 1 1 1, vq 0 1 2 1, vq 0 1 3 1, vq 0 1 4 1, vq 0 1 5 1] ∧
    (demoRes.spokes.getD 1 default).auxPoints =
      [vq 0 1 5 1, vq 0 1 4 1, vq 0 1 3 1, vq 0 1 2 1, vq 0 1 1 1] ∧
    (demoRes.spokes.getD 1 default).auxPoints ≠
      ((demoRes.trace.filter (fun p => p.1 = 1)).map Prod.snd) := by
  refine ⟨by decide, by decide, by decide, by decide⟩

/-- C5 witness: the amended reverse-order theorem applied to the demo
web at spoke index 1, with every hypothesis discharged concretely. -/
theorem auxStage_points_reverse_witness :
    auxStage qSqrtB halfStream 5 demoSpokes 0 20 = some demoRes ∧
    (demoRes.spokes.getD 1 default).auxPoints =
      ((demoRes.trace.filter (fun p => p.1 = 1)).map Prod.snd).reverse := by
  have hrun : auxStage qSqrtB halfStream 5 demoSpokes 0 20 = some demoRes := by decide
  exact ⟨hrun, auxStage_points_reverse qSqrtB halfStream 5 demoSpokes 0 20 demoRes
    (by decide) (by show (0 : ℤ) < 2; decide)
    (halfStream_unit_interval 0).1 (halfStream_unit_interval 0).2 hrun 1⟩

/-- Opening of `weaveWeb` (Canvas.tsx lines 616, 635-646): the
generator's first four draws from the global `Math.random` stream —
`lineSoundPoint = Math.random()`, then the three triangle corners
`originA = (0, fuzz(initY, 1))`, `originB = (width, fuzz(initY, 1))`,
`originC = (fuzz(width/2), height)` (default fuzz factor `0.1`) — and
the bridge thread `Line(originA, originB)`, the first output segment.
`nextPos` is the stream position after these four draws. -/
structure WebPrefix where
  lineSoundPoint : Q
  originA : VecB
  originB : VecB
  originC : VecB
  bridge : VecB × VecB
  nextPos : ℕ
deriving DecidableEq, Repr

/-- Translation of the opening of `weaveWeb`: there is no seed
parameter anywhere in the code; the only random source is the ambient
stream `s`, consumed starting at `pos`. -/
def webPrefix (s : ℕ → Q) (pos : ℕ) (width height initY : Q) : WebPrefix :=
  let lsp := s pos
  let originA : VecB := ⟨⟨0, 1⟩, fuzzQ s (pos + 1) initY (qOfInt 1)⟩
  let originB : VecB := ⟨width, fuzzQ s (pos + 2) initY (qOfInt 1)⟩
  let originC : VecB := ⟨fuzzQ s (pos + 3) (qDiv width (qOfInt 2)) (qRaw 1 10), height⟩
  ⟨lsp, originA, originB, originC, (originA, originB), pos + 4⟩

/-- A demo `Math.random` history: `1/2` on the second call, `1/4` on
every other call. -/
def altStream : ℕ → Q := fun n => if n = 1 then ⟨1, 2⟩ else ⟨1, 4⟩

/-- C4 counterexample: the code has no seed — `Math.random` is the
shared global generator — so a second `weaveWeb` run resumes the
stream wherever the first run left it.  Against the same stream
history, a run starting at position `0` and a run starting at any of
the positions `1..12` (the first run consumes at least one value,
`lineSoundPoint`, before anything else) produce different bridge
threads, hence different ordered segment lists. -/
theorem webPrefix_sequential_runs_differ :
    ((List.range' 1 12).all (fun p =>
      decide ((webPrefix altStream 0 (qOfInt 800) (qOfInt 600) (qOfInt 19)).bridge ≠
        (webPrefix altStream p (qOfInt 800) (qOfInt 600) (qOfInt 19)).bridge))) = true := by
  decide

/-- C4 amended: generation is deterministic as a function of the
random stream (and the numeric parameters), not of a seed: two runs
reading identical `Math.random` histories produce identical frame
prefixes, identical placed spoke lists and identical auxiliary
spirals. -/
theorem generation_deterministic_given_stream (sA sB : ℕ → Q)
    (h : ∀ n, sA n = sB n) :
    (∀ pos width height initY,
      webPrefix sA pos width height initY = webPrefix sB pos width height initY) ∧
    (∀ maxGap minFactor a b c pos fresh fuel,
      placeSpokes sA maxGap minFactor a b c pos fresh fuel =
        placeSpokes sB maxGap minFactor a b c pos fresh fuel) ∧
    (∀ sq auxRings spokes pos fuel,
      auxStage sq sA auxRings spokes pos fuel = auxStage sq sB auxRings spokes pos fuel) := by
  have hs : sA = sB := funext h
  subst hs
  exact ⟨fun _ _ _ _ => rfl, fun _ _ _ _ _ _ _ _ => rfl, fun _ _ _ _ _ => rfl⟩

/-- C4 witness: the determinism theorem instantiated on the constant
zero stream and the demo frame parameters. -/
theorem generation_deterministic_given_stream_witness :
    webPrefix zeroStream 0 (qOfInt 800) (qOfInt 600) (qOfInt 19) =
      webPrefix zeroStream 0 (qOfInt 800) (qOfInt 600) (qOfInt 19) :=
  (generation_deterministic_given_stream zeroStream zeroStream (fun _ => rfl)).1
    0 (qOfInt 800) (qOfInt 600) (qOfInt 19)

/-! ## Claim C1 — the placement loop bounds every circular gap

The `while (hasSpace)` loop verifies the pair at `(i, i+1 mod length)`
each iteration: an insertion splits exactly that pair (so pairs already
verified keep their two endpoints adjacent), and `i` advances only when
the pair's gap passed the `maxRadiusAngle` test.  The proof tracks the
circular window of verified pairs: at every loop head all pairs from
the starting radius up to (but excluding) the current pair have gap at
most `maxGap`, and the loop terminates exactly when the window plus the
current pair covers the whole circle.  No property of the sampled
angles is needed: the bound is enforced by the checks alone. -/

theorem spliceAt_length {α : Type} (p : ℕ) (a : α) (l : List α) :
    (spliceAt p a l).length = l.length + 1 := by
  induction l generalizing p with
  | nil => cases p <;> rfl
  | cons x xs ih =>
    cases p with
    | zero => rfl
    | succ k => simp [spliceAt, ih]

theorem getD_spliceAt_lt {α : Type} (p j : ℕ) (a d : α) (l : List α)
    (hj : j < p) (hp : p ≤ l.length) : (spliceAt p a l).getD j d = l.getD j d := by
  induction l generalizing p j with
  | nil => simp at hp; omega
  | cons x xs ih =>
    cases p with
    | zero => omega
    | succ k =>
      cases j with
      | zero => rfl
      | succ j2 =>
        simp only [spliceAt, List.getD_cons_succ]
        exact ih k j2 (by omega) (by simpa using hp)

theorem getD_spliceAt_self {α : Type} (p : ℕ) (a d : α) (l : List α)
    (hp : p ≤ l.length) : (spliceAt p a l).getD p d = a := by
  induction l generalizing p with
  | nil =>
    have hp0 : p = 0 := by simpa using hp
    subst hp0
    rfl
  | cons x xs ih =>
    cases p with
    | zero => rfl
    | succ k =>
      simp only [spliceAt, List.getD_cons_succ]
      exact ih k (by simpa using hp)

theorem getD_spliceAt_gt {α : Type} (p j : ℕ) (a d : α) (l : List α)
    (hj : p < j) : (spliceAt p a l).getD j d = l.getD (j - 1) d := by
  induction l generalizing p j with
  | nil =>
    cases j with
    | zero => omega
    | succ j2 => cases p <;> simp [spliceAt, List.getD]
  | cons x xs ih =>
    cases p with
    | zero =>
      cases j with
      | zero => omega
      | succ j2 => simp [spliceAt, List.getD_cons_succ]
    | succ k =>
      cases j with
      | zero => omega
      | succ j2 =>
        simp only [spliceAt, List.getD_cons_succ, Nat.succ_sub_one]
        cases j2 with
        | zero => omega
        | succ j3 =>
          rw [ih k (j3 + 1) (by omega)]
          simp

/-- The circular gap at index `j`:
`(spokes[(j+1) % len].angle - spokes[j].angle + 360) % 360`, the exact
expression the placement loop tests and `circGaps` lists. -/
def gapAt (spokes : List PSpoke) (j : ℕ) : Q :=
  jsModQ (qAdd (qSub (spokes.getD ((j + 1) % spokes.length) default).angle
    (spokes.getD j default).angle) (qOfInt 360)) (qOfInt 360)

theorem circGaps_eq_map (spokes : List PSpoke) :
    circGaps spokes = (List.range spokes.length).map (gapAt spokes) := rfl

theorem mod_sub_of_between {i L : ℕ} (h1 : L ≤ i) (h2 : i < 2 * L) :
    i % L = i - L := by
  rw [Nat.mod_eq_sub_mod h1, Nat.mod_eq_of_lt (by omega)]

theorem off_ge {j s0 L : ℕ} (hs : s0 ≤ j) (hj : j < L) :
    (j + L - s0) % L = j - s0 := by
  have h : j + L - s0 = (j - s0) + L := by omega
  rw [h, Nat.add_mod_right, Nat.mod_eq_of_lt (by omega)]

theorem off_lt_small {j s0 L : ℕ} (hs : j < s0) (hj : s0 ≤ L) :
    (j + L - s0) % L = j + L - s0 := by
  exact Nat.mod_eq_of_lt (by omega)

theorem off_inj {j1 j2 s0 L : ℕ} (h1 : j1 < L) (h2 : j2 < L) (hs : s0 < L)
    (h : (j1 + L - s0) % L = (j2 + L - s0) % L) : j1 = j2 := by
  rcases le_or_lt s0 j1 with ha | ha <;> rcases le_or_lt s0 j2 with hb | hb
  · rw [off_ge ha h1, off_ge hb h2] at h; omega
  · rw [off_ge ha h1, off_lt_small hb (le_of_lt hs)] at h; omega
  · rw [off_lt_small ha (le_of_lt hs), off_ge hb h2] at h; omega
  · rw [off_lt_small ha (le_of_lt hs), off_lt_small hb (le_of_lt hs)] at h; omega

theorem gapAt_spliceAt_keep (p j : ℕ) (a : PSpoke) (sp : List PSpoke)
    (hj : j + 1 < p) (hp : p ≤ sp.length) :
    gapAt (spliceAt p a sp) j = gapAt sp j := by
  unfold gapAt
  rw [spliceAt_length]
  have hL : j + 1 < sp.length := by omega
  have e1 : (j + 1) % (sp.length + 1) = j + 1 := Nat.mod_eq_of_lt (by omega)
  have e2 : (j + 1) % sp.length = j + 1 := Nat.mod_eq_of_lt hL
  rw [e1, e2, getD_spliceAt_lt p (j+1) a default sp hj hp,
    getD_spliceAt_lt p j a default sp (by omega) hp]

theorem gapAt_spliceAt_shift (p j : ℕ) (a : PSpoke) (sp : List PSpoke)
    (hpj : p < j) (hj : j ≤ sp.length) (hp : p ≤ sp.length)
    (hlast : j = sp.length → 1 ≤ p) :
    gapAt (spliceAt p a sp) j = gapAt sp (j - 1) := by
  unfold gapAt
  rw [spliceAt_length]
  rcases eq_or_lt_of_le hj with he | hlt
  · -- j is the new last index: the pair wraps to index 0
    have hp1 : 1 ≤ p := hlast he
    have hL : 0 < sp.length := by omega
    have e1 : (j + 1) % (sp.length + 1) = 0 := by rw [he]; simp
    have e2 : ((j - 1) + 1) % sp.length = 0 := by
      have : (j - 1) + 1 = sp.length := by omega
      rw [this, Nat.mod_self]
    rw [e1, e2, getD_spliceAt_gt p j a default sp hpj,
      getD_spliceAt_lt p 0 a default sp (by omega) hp]
  · -- interior pair: both endpoints shift down by one
    have e1 : (j + 1) % (sp.length + 1) = j + 1 := Nat.mod_eq_of_lt (by omega)
    have e2 : ((j - 1) + 1) % sp.length = j := by
      have : (j - 1) + 1 = j := by omega
      rw [this, Nat.mod_eq_of_lt hlt]
    rw [e1, e2, getD_spliceAt_gt p (j+1) a default sp (by omega),
      getD_spliceAt_gt p j a default sp hpj]
    simp

theorem gapAt_wf {sp : List PSpoke} (hL : 0 < sp.length)
    (hang : ∀ j, j < sp.length → (sp.getD j default).angle.wf) (j : ℕ)
    (hj : j < sp.length) : (gapAt sp j).wf := by
  unfold gapAt
  exact jsModQ_wf (qAdd_wf (qSub_wf
    (hang _ (Nat.mod_lt _ hL)) (hang _ hj)) (qOfInt_wf _)) (qOfInt_wf _)

/-- Loop invariant of the placement `while`, over the state components.
`s0` is the position of the starting radius.  The pieces: the starting
radius occurs exactly once; all stored object ids are below the next
fresh id; the loop index is below two laps; on the second lap the
current position is strictly behind the starting radius, which is not
at the last index; on the first lap the current position is at or past
the starting radius, and not at the last index while the starting
radius sits on it; every pair in the circular window from the starting
radius up to (excluding) the current pair has passed the gap test; and
every stored angle is well-formed. -/
def placeInvC (maxGap : Q) (startOid : ℕ) (sp : List PSpoke) (idx nextOid : ℕ) : Prop :=
  ∃ s0, s0 < sp.length ∧
    (sp.getD s0 default).oid = startOid ∧
    (∀ j, j < sp.length → j ≠ s0 → (sp.getD j default).oid ≠ startOid) ∧
    (∀ j, j < sp.length → (sp.getD j default).oid < nextOid) ∧
    idx < 2 * sp.length ∧
    (sp.length ≤ idx → idx % sp.length < s0 ∧ s0 + 2 ≤ sp.length) ∧
    (idx < sp.length → s0 ≤ idx ∧ (s0 = idx → idx + 2 ≤ sp.length)) ∧
    (∀ j, j < sp.length →
      (j + sp.length - s0) % sp.length <
        (idx % sp.length + sp.length - s0) % sp.length →
      qLtB maxGap (gapAt sp j) = false) ∧
    (∀ j, j < sp.length → (sp.getD j default).angle.wf)

theorem placeInvC_two_le {maxGap : Q} {startOid : ℕ} {sp : List PSpoke}
    {idx nextOid : ℕ} (hinv : placeInvC maxGap startOid sp idx nextOid) :
    2 ≤ sp.length := by
  obtain ⟨s0, hs0, _, _, _, _, hsw1, hsw0, _, _⟩ := hinv
  rcases lt_or_le idx sp.length with h | h
  · obtain ⟨h1, h2⟩ := hsw0 h
    rcases eq_or_lt_of_le h1 with he | hlt
    · have := h2 he
      omega
    · omega
  · exact le_trans (by omega) (hsw1 h).2

/-- After an insertion at `p ≤ s0`, the starting radius moves to
`s0 + 1`; ids, uniqueness, bounds and angle well-formedness carry over
(identity components of the invariant). -/
theorem splice_id_le {startOid : ℕ} {sp : List PSpoke} {nextOid : ℕ}
    (new : PSpoke) (hno : new.oid = nextOid) (hna : new.angle.wf)
    {s0 p : ℕ} (hs0 : s0 < sp.length) (hp : p ≤ s0)
    (hoid : (sp.getD s0 default).oid = startOid)
    (huni : ∀ j, j < sp.length → j ≠ s0 → (sp.getD j default).oid ≠ startOid)
    (hb : ∀ j, j < sp.length → (sp.getD j default).oid < nextOid)
    (hang : ∀ j, j < sp.length → (sp.getD j default).angle.wf) :
    ((spliceAt p new sp).getD (s0 + 1) default).oid = startOid ∧
    (∀ j, j < sp.length + 1 → j ≠ s0 + 1 →
      ((spliceAt p new sp).getD j default).oid ≠ startOid) ∧
    (∀ j, j < sp.length + 1 → ((spliceAt p new sp).getD j default).oid < nextOid + 1) ∧
    (∀ j, j < sp.length + 1 → ((spliceAt p new sp).getD j default).angle.wf) := by
  have hpL : p ≤ sp.length := by omega
  have hstart : startOid < nextOid := hoid ▸ hb s0 hs0
  refine ⟨?_, ?_, ?_, ?_⟩
  · rw [getD_spliceAt_gt p (s0 + 1) new default sp (by omega)]
    simpa using hoid
  · intro j hj hne
    rcases lt_trichotomy j p with hc | hc | hc
    · rw [getD_spliceAt_lt p j new default sp hc hpL]
      exact huni j (by omega) (by omega)
    · subst hc
      rw [getD_spliceAt_self _ _ _ _ hpL, hno]
      omega
    · rw [getD_spliceAt_gt p j new default sp hc]
      exact huni (j - 1) (by omega) (by omega)
  · intro j hj
    rcases lt_trichotomy j p with hc | hc | hc
    · rw [getD_spliceAt_lt p j new default sp hc hpL]
      exact lt_trans (hb j (by omega)) (by omega)
    · subst hc
      rw [getD_spliceAt_self _ _ _ _ hpL, hno]
      omega
    · rw [getD_spliceAt_gt p j new default sp hc]
      exact lt_trans (hb (j - 1) (by omega)) (by omega)
  · intro j hj
    rcases lt_trichotomy j p with hc | hc | hc
    · rw [getD_spliceAt_lt p j new default sp hc hpL]
      exact hang j (by omega)
    · subst hc
      rw [getD_spliceAt_self _ _ _ _ hpL]
      exact hna
    · rw [getD_spliceAt_gt p j new default sp hc]
      exact hang (j - 1) (by omega)

/-- After an insertion at `p > s0`, the starting radius stays at `s0`;
identity components of the invariant carry over. -/
theorem splice_id_gt {startOid : ℕ} {sp : List PSpoke} {nextOid : ℕ}
    (new : PSpoke) (hno : new.oid = nextOid) (hna : new.angle.wf)
    {s0 p : ℕ} (hs0 : s0 < sp.length) (hp : s0 < p) (hpL : p ≤ sp.length)
    (hoid : (sp.getD s0 default).oid = startOid)
    (huni : ∀ j, j < sp.length → j ≠ s0 → (sp.getD j default).oid ≠ startOid)
    (hb : ∀ j, j < sp.length → (sp.getD j default).oid < nextOid)
    (hang : ∀ j, j < sp.length → (sp.getD j default).angle.wf) :
    ((spliceAt p new sp).getD s0 default).oid = startOid ∧
    (∀ j, j < sp.length + 1 → j ≠ s0 →
      ((spliceAt p new sp).getD j default).oid ≠ startOid) ∧
    (∀ j, j < sp.length + 1 → ((spliceAt p new sp).getD j default).oid < nextOid + 1) ∧
    (∀ j, j < sp.length + 1 → ((spliceAt p new sp).getD j default).angle.wf) := by
  have hstart : startOid < nextOid := hoid ▸ hb s0 hs0
  refine ⟨?_, ?_, ?_, ?_⟩
  · rw [getD_spliceAt_lt p s0 new default sp hp hpL]
    exact hoid
  · intro j hj hne
    rcases lt_trichotomy j p with hc | hc | hc
    · rw [getD_spliceAt_lt p j new default sp hc hpL]
      exact huni j (by omega) hne
    · subst hc
      rw [getD_spliceAt_self _ _ _ _ hpL, hno]
      omega
    · rw [getD_spliceAt_gt p j new default sp hc]
      exact huni (j - 1) (by omega) (by omega)
  · intro j hj
    rcases lt_trichotomy j p with hc | hc | hc
    · rw [getD_spliceAt_lt p j new default sp hc hpL]
      exact lt_trans (hb j (by omega)) (by omega)
    · subst hc
      rw [getD_spliceAt_self _ _ _ _ hpL, hno]
      omega
    · rw [getD_spliceAt_gt p j new default sp hc]
      exact lt_trans (hb (j - 1) (by omega)) (by omega)
  · intro j hj
    rcases lt_trichotomy j p with hc | hc | hc
    · rw [getD_spliceAt_lt p j new default sp hc hpL]
      exact hang j (by omega)
    · subst hc
      rw [getD_spliceAt_self _ _ _ _ hpL]
      exact hna
    · rw [getD_spliceAt_gt p j new default sp hc]
      exact hang (j - 1) (by omega)

/-- Insertion preservation, first lap, interior position
(`idx + 1 < length`): the splice lands strictly ahead of the verified
window, which therefore survives unchanged. -/
theorem placeInvC_insert_inner {maxGap : Q} {startOid : ℕ} {sp : List PSpoke}
    {idx nextOid : ℕ} (new : PSpoke) (hno : new.oid = nextOid) (hna : new.angle.wf)
    (hinv : placeInvC maxGap startOid sp idx nextOid) (hc : idx + 1 < sp.length) :
    placeInvC maxGap startOid (spliceAt ((idx + 1) % sp.length) new sp) idx (nextOid + 1) := by
  obtain ⟨s0, hs0, hoid, huni, hb, h2L, hsw1, hsw0, hwin, hang⟩ := hinv
  have hidx : idx < sp.length := by omega
  obtain ⟨hs0le, hclause⟩ := hsw0 hidx
  have hpe : (idx + 1) % sp.length = idx + 1 := Nat.mod_eq_of_lt hc
  rw [hpe]
  have hids := splice_id_gt new hno hna hs0 (show s0 < idx + 1 by omega)
    (show idx + 1 ≤ sp.length by omega) hoid huni hb hang
  refine ⟨s0, ?_, hids.1, ?_, ?_, ?_, ?_, ?_, ?_, ?_⟩
  · rw [spliceAt_length]; omega
  · rw [spliceAt_length]; exact hids.2.1
  · rw [spliceAt_length]; exact hids.2.2.1
  · rw [spliceAt_length]; omega
  · rw [spliceAt_length]; intro h; omega
  · rw [spliceAt_length]
    intro _
    exact ⟨hs0le, fun he => by have := hclause he; omega⟩
  · rw [spliceAt_length]
    intro j hj hoff
    have hidxm : idx % (sp.length + 1) = idx := Nat.mod_eq_of_lt (by omega)
    rw [hidxm, off_ge (by omega : s0 ≤ idx) (by omega : idx < sp.length + 1)] at hoff
    rcases le_or_lt s0 j with hsj | hsj
    · rw [off_ge hsj hj] at hoff
      rw [gapAt_spliceAt_keep (idx + 1) j new sp (by omega) (by omega)]
      apply hwin j (by omega)
      rw [Nat.mod_eq_of_lt hidx, off_ge hsj (by omega), off_ge (by omega) hidx]
      omega
    · rw [off_lt_small hsj (by omega)] at hoff
      omega
  · rw [spliceAt_length]; exact hids.2.2.2

/-- Insertion preservation, first lap, top position
(`idx + 1 = length`): the splice lands at the front, the starting
radius and all verified pairs shift up by one. -/
theorem placeInvC_insert_top {maxGap : Q} {startOid : ℕ} {sp : List PSpoke}
    {idx nextOid : ℕ} (new : PSpoke) (hno : new.oid = nextOid) (hna : new.angle.wf)
    (hinv : placeInvC maxGap startOid sp idx nextOid) (hc : idx + 1 = sp.length) :
    placeInvC maxGap startOid (spliceAt ((idx + 1) % sp.length) new sp) idx (nextOid + 1) := by
  have h2 := placeInvC_two_le hinv
  obtain ⟨s0, hs0, hoid, huni, hb, h2L, hsw1, hsw0, hwin, hang⟩ := hinv
  have hidx : idx < sp.length := by omega
  obtain ⟨hs0le, hclause⟩ := hsw0 hidx
  have hpe : (idx + 1) % sp.length = 0 := by rw [hc, Nat.mod_self]
  rw [hpe]
  have hs0top : s0 + 2 ≤ sp.length := by
    rcases eq_or_lt_of_le hs0le with he | hlt
    · have := hclause he
      omega
    · omega
  have hids := splice_id_le new hno hna hs0 (show 0 ≤ s0 by omega) hoid huni hb hang
  refine ⟨s0 + 1, ?_, hids.1, ?_, ?_, ?_, ?_, ?_, ?_, ?_⟩
  · rw [spliceAt_length]; omega
  · rw [spliceAt_length]; exact hids.2.1
  · rw [spliceAt_length]; exact hids.2.2.1
  · rw [spliceAt_length]; omega
  · rw [spliceAt_length]; intro h; omega
  · rw [spliceAt_length]
    intro _
    constructor
    · omega
    · intro _
      omega
  · rw [spliceAt_length]
    intro j hj hoff
    rw [Nat.mod_eq_of_lt (show idx < sp.length + 1 by omega)] at hoff
    have hrhs : (idx + (sp.length + 1) - (s0 + 1)) % (sp.length + 1) = idx - s0 - 1 := by
      rw [mod_sub_of_between (by omega) (by omega)]
      omega
    rw [hrhs] at hoff
    rcases le_or_lt (s0 + 1) j with hsj | hsj
    · have harg : j + (sp.length + 1) - (s0 + 1) = j - s0 - 1 + (sp.length + 1) := by omega
      rw [harg, Nat.add_mod_right, Nat.mod_eq_of_lt (by omega)] at hoff
      rw [gapAt_spliceAt_shift 0 j new sp (by omega) (by omega) (by omega) (fun h => by omega)]
      apply hwin (j - 1) (by omega)
      rw [Nat.mod_eq_of_lt hidx, off_ge (by omega) (by omega), off_ge (by omega) hidx]
      omega
    · rw [off_lt_small hsj (by omega)] at hoff
      omega
  · rw [spliceAt_length]; exact hids.2.2.2

/-- Insertion preservation, second lap at its first position
(`idx = length`): the splice lands at index `1`, behind the starting
radius, and the loop pointer wraps back to the (new) last index. -/
theorem placeInvC_insert_wrapA {maxGap : Q} {startOid : ℕ} {sp : List PSpoke}
    {idx nextOid : ℕ} (new : PSpoke) (hno : new.oid = nextOid) (hna : new.angle.wf)
    (hinv : placeInvC maxGap startOid sp idx nextOid) (hc : idx = sp.length) :
    placeInvC maxGap startOid (spliceAt ((idx + 1) % sp.length) new sp) idx (nextOid + 1) := by
  have h2 := placeInvC_two_le hinv
  obtain ⟨s0, hs0, hoid, huni, hb, h2L, hsw1, hsw0, hwin, hang⟩ := hinv
  obtain ⟨hcis0, hs0b⟩ := hsw1 (by omega)
  have hms : idx % sp.length = 0 := by rw [hc, Nat.mod_self]
  rw [hms] at hcis0
  have hpe : (idx + 1) % sp.length = 1 := by
    rw [mod_sub_of_between (by omega) (by omega)]
    omega
  rw [hpe]
  have hids := splice_id_le new hno hna hs0 (show 1 ≤ s0 by omega) hoid huni hb hang
  refine ⟨s0 + 1, ?_, hids.1, ?_, ?_, ?_, ?_, ?_, ?_, ?_⟩
  · rw [spliceAt_length]; omega
  · rw [spliceAt_length]; exact hids.2.1
  · rw [spliceAt_length]; exact hids.2.2.1
  · rw [spliceAt_length]; omega
  · rw [spliceAt_length]; intro h; omega
  · rw [spliceAt_length]
    intro _
    constructor
    · omega
    · intro he
      omega
  · rw [spliceAt_length]
    intro j hj hoff
    rw [Nat.mod_eq_of_lt (show idx < sp.length + 1 by omega)] at hoff
    have hrhs : (idx + (sp.length + 1) - (s0 + 1)) % (sp.length + 1) =
        sp.length - s0 - 1 := by
      rw [show idx + (sp.length + 1) - (s0 + 1) =
        sp.length - s0 - 1 + (sp.length + 1) by omega, Nat.add_mod_right]
      exact Nat.mod_eq_of_lt (by omega)
    rw [hrhs] at hoff
    rcases le_or_lt (s0 + 1) j with hsj | hsj
    · have hlhs : (j + (sp.length + 1) - (s0 + 1)) % (sp.length + 1) = j - s0 - 1 := by
        rw [show j + (sp.length + 1) - (s0 + 1) =
          j - s0 - 1 + (sp.length + 1) by omega, Nat.add_mod_right]
        exact Nat.mod_eq_of_lt (by omega)
      rw [hlhs] at hoff
      rw [gapAt_spliceAt_shift 1 j new sp (by omega) (by omega) (by omega) (fun _ => by omega)]
      apply hwin (j - 1) (by omega)
      rw [hms, off_ge (by omega) (by omega),
        Nat.mod_eq_of_lt (show 0 + sp.length - s0 < sp.length by omega)]
      omega
    · have hlhs : (j + (sp.length + 1) - (s0 + 1)) % (sp.length + 1) =
          j + sp.length - s0 := by
        rw [show j + (sp.length + 1) - (s0 + 1) = j + sp.length - s0 by omega]
        exact Nat.mod_eq_of_lt (by omega)
      rw [hlhs] at hoff
      omega
  · rw [spliceAt_length]; exact hids.2.2.2

/-- Insertion preservation, second lap past its first position
(`length + 1 ≤ idx`): the splice lands behind the starting radius and
the loop pointer slips back by one, shrinking the verified window by
one pair. -/
theorem placeInvC_insert_wrapB {maxGap : Q} {startOid : ℕ} {sp : List PSpoke}
    {idx nextOid : ℕ} (new : PSpoke) (hno : new.oid = nextOid) (hna : new.angle.wf)
    (hinv : placeInvC maxGap startOid sp idx nextOid) (hc : sp.length + 1 ≤ idx) :
    placeInvC maxGap startOid (spliceAt ((idx + 1) % sp.length) new sp) idx (nextOid + 1) := by
  have h2 := placeInvC_two_le hinv
  obtain ⟨s0, hs0, hoid, huni, hb, h2L, hsw1, hsw0, hwin, hang⟩ := hinv
  obtain ⟨hcis0, hs0b⟩ := hsw1 (by omega)
  have hms : idx % sp.length = idx - sp.length := mod_sub_of_between (by omega) h2L
  rw [hms] at hcis0
  have hpe : (idx + 1) % sp.length = idx + 1 - sp.length := by
    rw [mod_sub_of_between (by omega) (by omega)]
  rw [hpe]
  have hids := splice_id_le new hno hna hs0
    (show idx + 1 - sp.length ≤ s0 by omega) hoid huni hb hang
  refine ⟨s0 + 1, ?_, hids.1, ?_, ?_, ?_, ?_, ?_, ?_, ?_⟩
  · rw [spliceAt_length]; omega
  · rw [spliceAt_length]; exact hids.2.1
  · rw [spliceAt_length]; exact hids.2.2.1
  · rw [spliceAt_length]; omega
  · rw [spliceAt_length]
    intro _
    have hm2 : idx % (sp.length + 1) = idx - (sp.length + 1) :=
      mod_sub_of_between (by omega) (by omega)
    rw [hm2]
    omega
  · rw [spliceAt_length]; intro h; omega
  · rw [spliceAt_length]
    intro j hj hoff
    have hm2 : idx % (sp.length + 1) = idx - (sp.length + 1) :=
      mod_sub_of_between (by omega) (by omega)
    rw [hm2] at hoff
    have hrhs : (idx - (sp.length + 1) + (sp.length + 1) - (s0 + 1)) % (sp.length + 1) =
        idx - s0 - 1 := by
      rw [show idx - (sp.length + 1) + (sp.length + 1) - (s0 + 1) = idx - s0 - 1 by omega]
      exact Nat.mod_eq_of_lt (by omega)
    rw [hrhs] at hoff
    rcases le_or_lt (s0 + 1) j with hsj | hsj
    · have hlhs : (j + (sp.length + 1) - (s0 + 1)) % (sp.length + 1) = j - s0 - 1 := by
        rw [show j + (sp.length + 1) - (s0 + 1) =
          j - s0 - 1 + (sp.length + 1) by omega, Nat.add_mod_right]
        exact Nat.mod_eq_of_lt (by omega)
      rw [hlhs] at hoff
      rw [gapAt_spliceAt_shift (idx + 1 - sp.length) j new sp (by omega) (by omega)
        (by omega) (fun _ => by omega)]
      apply hwin (j - 1) (by omega)
      rw [hms, off_ge (by omega) (by omega), off_lt_small (by omega) (by omega)]
      omega
    · have hlhs : (j + (sp.length + 1) - (s0 + 1)) % (sp.length + 1) =
          j + sp.length - s0 := by
        rw [show j + (sp.length + 1) - (s0 + 1) = j + sp.length - s0 by omega]
        exact Nat.mod_eq_of_lt (by omega)
      rw [hlhs] at hoff
      rw [gapAt_spliceAt_keep (idx + 1 - sp.length) j new sp (by omega) (by omega)]
      apply hwin j (by omega)
      rw [hms, off_lt_small (by omega) (by omega), off_lt_small (by omega) (by omega)]
      omega
  · rw [spliceAt_length]; exact hids.2.2.2

/-- Insertion at `(idx + 1) % length` preserves the placement
invariant (all four positions of the loop pointer). -/
theorem placeInvC_insert {maxGap : Q} {startOid : ℕ} {sp : List PSpoke}
    {idx nextOid : ℕ} (new : PSpoke) (hno : new.oid = nextOid) (hna : new.angle.wf)
    (hinv : placeInvC maxGap startOid sp idx nextOid) :
    placeInvC maxGap startOid (spliceAt ((idx + 1) % sp.length) new sp) idx (nextOid + 1) := by
  rcases lt_or_le (idx + 1) sp.length with h | h
  · exact placeInvC_insert_inner new hno hna hinv h
  · rcases lt_or_le idx sp.length with h2 | h2
    · exact placeInvC_insert_top new hno hna hinv (by omega)
    · rcases eq_or_lt_of_le h2 with h3 | h3
      · exact placeInvC_insert_wrapA new hno hna hinv h3.symm
      · exact placeInvC_insert_wrapB new hno hna hinv (by omega)

/-- Advancing past a pair that passed the gap test (and is not the
closing pair) grows the verified window by exactly that pair. -/
theorem placeInvC_advance {maxGap : Q} {startOid : ℕ} {sp : List PSpoke}
    {idx nextOid : ℕ}
    (hinv : placeInvC maxGap startOid sp idx nextOid)
    (hg : qLtB maxGap (gapAt sp (idx % sp.length)) = false)
    (hnext : (sp.getD ((idx + 1) % sp.length) default).oid ≠ startOid) :
    placeInvC maxGap startOid sp (idx + 1) nextOid := by
  have h2 := placeInvC_two_le hinv
  obtain ⟨s0, hs0, hoid, huni, hb, h2L, hsw1, hsw0, hwin, hang⟩ := hinv
  have hL : 0 < sp.length := by omega
  have hc : idx % sp.length < sp.length := Nat.mod_lt _ hL
  have hne : (idx + 1) % sp.length ≠ s0 := by
    intro he
    exact hnext (by rw [he]; exact hoid)
  refine ⟨s0, hs0, hoid, huni, hb, ?_, ?_, ?_, ?_, hang⟩
  · rcases lt_or_le idx sp.length with hi | hi
    · omega
    · obtain ⟨hci, hs2⟩ := hsw1 hi
      have hms : idx % sp.length = idx - sp.length := mod_sub_of_between hi h2L
      rw [hms] at hci
      omega
  · intro h1
    rcases lt_or_le idx sp.length with hi | hi
    · have hieq : idx + 1 = sp.length := by omega
      have hm0 : (idx + 1) % sp.length = 0 := by rw [hieq, Nat.mod_self]
      rw [hm0]
      obtain ⟨hs0le, hclause⟩ := hsw0 hi
      have hs0pos : 0 < s0 := by
        rcases Nat.eq_zero_or_pos s0 with h0 | h0
        · exact absurd (by rw [hm0, h0]) hne
        · exact h0
      refine ⟨hs0pos, ?_⟩
      rcases eq_or_lt_of_le hs0le with he | hlt
      · have := hclause he
        omega
      · omega
    · obtain ⟨hci, hs2⟩ := hsw1 hi
      have hms : idx % sp.length = idx - sp.length := mod_sub_of_between hi h2L
      rw [hms] at hci
      have hm1 : (idx + 1) % sp.length = idx + 1 - sp.length :=
        mod_sub_of_between (by omega) (by omega)
      rw [hm1]
      refine ⟨?_, hs2⟩
      rcases eq_or_lt_of_le (show idx + 1 - sp.length ≤ s0 by omega) with he | hlt
      · rw [hm1] at hne
        exact absurd he hne
      · exact hlt
  · intro h1
    obtain ⟨hs0le, _⟩ := hsw0 (by omega)
    exact ⟨by omega, fun he => by omega⟩
  · intro j hj hoff
    rcases eq_or_lt_of_le (Nat.succ_le_of_lt hc) with hce | hce
    · have hm1 : (idx + 1) % sp.length = 0 := by
        rw [← Nat.mod_add_mod, show idx % sp.length + 1 = sp.length from hce, Nat.mod_self]
      have hs0pos : 0 < s0 := by
        rcases Nat.eq_zero_or_pos s0 with h0 | h0
        · exact absurd (by rw [hm1, h0]) hne
        · exact h0
      rw [hm1] at hoff
      have hrhs : (0 + sp.length - s0) % sp.length = sp.length - s0 := by
        rw [show 0 + sp.length - s0 = sp.length - s0 by omega]
        exact Nat.mod_eq_of_lt (by omega)
      rw [hrhs] at hoff
      rcases le_or_lt s0 j with hsj | hsj
      · rcases eq_or_lt_of_le (show j ≤ sp.length - 1 by omega) with hje | hjl
        · have hjc : j = idx % sp.length := by omega
          rw [hjc]
          exact hg
        · apply hwin j hj
          rw [off_ge hsj hj, off_ge (show s0 ≤ idx % sp.length by omega) hc]
          omega
      · rw [off_lt_small hsj (by omega)] at hoff
        omega
    · have hm1 : (idx + 1) % sp.length = idx % sp.length + 1 := by
        rw [← Nat.mod_add_mod]
        exact Nat.mod_eq_of_lt hce
      rw [hm1] at hoff
      rw [hm1] at hne
      rcases le_or_lt s0 (idx % sp.length + 1) with hsc | hsc
      · have hsc2 : s0 ≤ idx % sp.length := by omega
        rw [off_ge hsc (by omega)] at hoff
        rcases le_or_lt s0 j with hsj | hsj
        · rw [off_ge hsj hj] at hoff
          rcases eq_or_lt_of_le (show j ≤ idx % sp.length by omega) with hje | hjl
          · rw [hje]
            exact hg
          · apply hwin j hj
            rw [off_ge hsj hj, off_ge hsc2 hc]
            omega
        · rw [off_lt_small hsj (by omega)] at hoff
          omega
      · rw [off_lt_small hsc (by omega)] at hoff
        rcases le_or_lt s0 j with hsj | hsj
        · apply hwin j hj
          rw [off_ge hsj hj, off_lt_small (show idx % sp.length < s0 by omega) (by omega)]
          omega
        · rw [off_lt_small hsj (by omega)] at hoff
          rcases eq_or_lt_of_le (show j ≤ idx % sp.length by omega) with hje | hjl
          · rw [hje]
            exact hg
          · apply hwin j hj
            rw [off_lt_small hsj (by omega),
              off_lt_small (show idx % sp.length < s0 by omega) (by omega)]
            omega

/-- When the closing pair (its successor is the starting radius)
passes the gap test, every circular gap of the list has passed it. -/
theorem placeInvC_terminate {maxGap : Q} {startOid : ℕ} {sp : List PSpoke}
    {idx nextOid : ℕ}
    (hinv : placeInvC maxGap startOid sp idx nextOid)
    (hg : qLtB maxGap (gapAt sp (idx % sp.length)) = false)
    (hnext : (sp.getD ((idx + 1) % sp.length) default).oid = startOid) :
    ∀ j, j < sp.length → qLtB maxGap (gapAt sp j) = false := by
  have h2 := placeInvC_two_le hinv
  obtain ⟨s0, hs0, hoid, huni, hb, h2L, hsw1, hsw0, hwin, hang⟩ := hinv
  have hL : 0 < sp.length := by omega
  have hc : idx % sp.length < sp.length := Nat.mod_lt _ hL
  have hseq : (idx + 1) % sp.length = s0 := by
    by_contra hne
    exact huni _ (Nat.mod_lt _ hL) hne hnext
  intro j hj
  rcases eq_or_ne j (idx % sp.length) with hje | hjne
  · rw [hje]
    exact hg
  · apply hwin j hj
    have hu : (idx % sp.length + sp.length - s0) % sp.length = sp.length - 1 := by
      rcases eq_or_lt_of_le (Nat.succ_le_of_lt hc) with hce | hce
      · have hm1 : (idx + 1) % sp.length = 0 := by
          rw [← Nat.mod_add_mod, show idx % sp.length + 1 = sp.length from hce, Nat.mod_self]
        have hs00 : s0 = 0 := by rw [← hseq, hm1]
        rw [hs00, show idx % sp.length + sp.length - 0 =
          idx % sp.length + sp.length by omega, Nat.add_mod_right, Nat.mod_eq_of_lt hc]
        omega
      · have hm1 : (idx + 1) % sp.length = idx % sp.length + 1 := by
          rw [← Nat.mod_add_mod]
          exact Nat.mod_eq_of_lt hce
        have hs0e : s0 = idx % sp.length + 1 := by rw [← hseq, hm1]
        rw [hs0e, off_lt_small (by omega) (by omega)]
        omega
    rw [hu]
    have hlt : (j + sp.length - s0) % sp.length < sp.length := Nat.mod_lt _ hL
    by_contra hge
    push_neg at hge
    have heq : (j + sp.length - s0) % sp.length =
        (idx % sp.length + sp.length - s0) % sp.length := by omega
    exact hjne (off_inj hj hc hs0 heq)

/-- Any angle the resample loop returns is well-formed, given a
well-formed stream, current angle and gap. -/
theorem resampleLoop_wf (s : ℕ → Q) (hs : ∀ n, (s n).wf)
    (minFactor currAngle nextAngle gap : Q) (hca : currAngle.wf) (hg : gap.wf) :
    ∀ fuel pos a pos2,
      resampleLoop s minFactor currAngle nextAngle gap pos fuel = some (a, pos2) →
      a.wf := by
  intro fuel
  induction fuel with
  | zero =>
    intro pos a pos2 h
    simp [resampleLoop] at h
  | succ n ih =>
    intro pos a pos2 h
    simp only [resampleLoop] at h
    split at h
    · exact ih _ _ _ h
    · rw [Option.some_inj] at h
      simp only [Prod.mk.injEq] at h
      obtain ⟨h1, h2⟩ := h
      subst h1
      exact qAdd_wf (qMul_wf (hs pos) (qSub_wf (qAdd_wf hca hg) hca)) hca

/-- Partial correctness of the placement loop: whatever the random
stream produced, if the loop returned, every circular gap of the final
spoke list has passed the `maxGap` test (and every final angle is
well-formed). -/
theorem placeLoop_gapBound (s : ℕ → Q) (maxGap minFactor : Q) (startOid : ℕ)
    (hs : ∀ n, (s n).wf) :
    ∀ fuel st st', placeLoop s maxGap minFactor startOid fuel st = some st' →
      placeInvC maxGap startOid st.spokes st.idx st.nextOid →
      (∀ j, j < st'.spokes.length → qLtB maxGap (gapAt st'.spokes j) = false) ∧
      (∀ j, j < st'.spokes.length → (st'.spokes.getD j default).angle.wf) := by
  intro fuel
  induction fuel with
  | zero =>
    intro st st' h
    simp [placeLoop] at h
  | succ n ih =>
    intro st st' h hinv
    obtain ⟨sp, radii, idx, pos, no⟩ := st
    have hL : 0 < sp.length := by
      have h2 : 2 ≤ sp.length := placeInvC_two_le hinv
      omega
    have hgap_eq : jsModQ (qAdd (qSub ((sp.getD ((idx + 1) % sp.length) default).angle)
        ((sp.getD (idx % sp.length) default).angle)) (qOfInt 360)) (qOfInt 360) =
        gapAt sp (idx % sp.length) := by
      unfold gapAt
      rw [Nat.mod_add_mod]
    simp only [placeLoop] at h
    split at h
    · rename_i hgt
      split at h
      · simp at h
      · rename_i newAngle pos2 hres
        refine ih _ _ h ?_
        apply placeInvC_insert _ rfl ?_ hinv
        obtain ⟨s0, hs0, _, _, _, _, _, _, _, hang⟩ := hinv
        have hca : ((sp.getD (idx % sp.length) default).angle).wf :=
          hang _ (Nat.mod_lt _ hL)
        have hgw : (jsModQ (qAdd (qSub ((sp.getD ((idx + 1) % sp.length) default).angle)
            ((sp.getD (idx % sp.length) default).angle)) (qOfInt 360)) (qOfInt 360)).wf :=
          jsModQ_wf (qAdd_wf (qSub_wf (hang _ (Nat.mod_lt _ hL)) hca) (qOfInt_wf _))
            (qOfInt_wf _)
        exact jsModQ_wf (qAdd_wf
          (resampleLoop_wf s hs minFactor _ _ _ hca hgw n pos newAngle pos2 hres)
          (qOfInt_wf _)) (qOfInt_wf _)
    · rename_i hle
      simp only [Bool.not_eq_true] at hle
      rw [hgap_eq] at hle
      split at h
      · rename_i hoideq
        rw [Option.some_inj] at h
        subst h
        constructor
        · intro j hj
          exact placeInvC_terminate hinv hle hoideq j hj
        · intro j hj
          obtain ⟨s0, hs0, _, _, _, _, _, _, _, hang⟩ := hinv
          exact hang j hj
      · rename_i hoidne
        exact ih _ _ h (placeInvC_advance hinv hle hoidne)

/-- C1: for every spoke set produced by the placement loop — any
random stream, any well-formed seed angles, any starting index — every
circular angular gap of the final list, computed as
`(next.angle - curr.angle + 360) % 360`, is at most `maxGap`
(`maxRadiusAngle`): the JavaScript comparison `gap > maxGap` is false
and the exact rational value is `≤ maxGap`. -/
theorem placement_gap_bound (s : ℕ → Q) (maxGap minFactor : Q)
    (seedA seedB seedC : PSpoke) (pos fresh fuel : ℕ) (st' : PlaceState)
    (hs : ∀ n, (s n).wf) (hmg : maxGap.wf)
    (hwf : seedA.angle.wf ∧ seedB.angle.wf ∧ seedC.angle.wf)
    (hd : ([seedA, seedB, seedC].map PSpoke.oid).Nodup)
    (hfresh : seedA.oid < fresh ∧ seedB.oid < fresh ∧ seedC.oid < fresh)
    (hrun : placeSpokes s maxGap minFactor seedA seedB seedC pos fresh fuel = some st') :
    ∀ g ∈ circGaps st'.spokes, qLtB maxGap g = false ∧ g.toRat ≤ maxGap.toRat := by
  have hperm : List.Perm (sortSpokes [seedA, seedB, seedC]) [seedA, seedB, seedC] :=
    sortSpokes_perm _
  have hlen : (sortSpokes [seedA, seedB, seedC]).length = 3 := by
    rw [hperm.length_eq]
    rfl
  have hnd : ((sortSpokes [seedA, seedB, seedC]).map PSpoke.oid).Nodup :=
    (hperm.map PSpoke.oid).nodup_iff.mpr (by simpa using hd)
  have hmem : ∀ p ∈ sortSpokes [seedA, seedB, seedC],
      p.angle.wf ∧ p.oid < fresh := by
    intro p hp
    have hp2 : p ∈ [seedA, seedB, seedC] := hperm.mem_iff.mp hp
    simp only [List.mem_cons, List.mem_singleton, List.not_mem_nil, or_false] at hp2
    rcases hp2 with h | h | h <;> subst h
    · exact ⟨hwf.1, hfresh.1⟩
    · exact ⟨hwf.2.1, hfresh.2.1⟩
    · exact ⟨hwf.2.2, hfresh.2.2⟩
  have hinit : placeInvC maxGap
      ((sortSpokes [seedA, seedB, seedC]).getD 0 default).oid
      (sortSpokes [seedA, seedB, seedC]) 0 fresh := by
    refine ⟨0, by omega, rfl, ?_, ?_, by omega, ?_, ?_, ?_, ?_⟩
    · intro j hj hne he
      apply hne
      have hj3 : j < ((sortSpokes [seedA, seedB, seedC]).map PSpoke.oid).length := by
        rw [List.length_map]
        exact hj
      have h03 : 0 < ((sortSpokes [seedA, seedB, seedC]).map PSpoke.oid).length := by
        rw [List.length_map]
        omega
      have hgd : ∀ k (hk : k < (sortSpokes [seedA, seedB, seedC]).length),
          ((sortSpokes [seedA, seedB, seedC]).getD k default).oid =
          ((sortSpokes [seedA, seedB, seedC]).map PSpoke.oid).get ⟨k, by
            rw [List.length_map]; exact hk⟩ := by
        intro k hk
        rw [List.getD_eq_getElem _ _ hk]
        simp
      rw [hgd j hj, hgd 0 (by omega)] at he
      exact congrArg Fin.val ((List.Nodup.get_inj_iff hnd).mp he)
    · intro j hj
      have hget : (sortSpokes [seedA, seedB, seedC]).getD j default ∈
          sortSpokes [seedA, seedB, seedC] := by
        rw [List.getD_eq_getElem _ _ hj]
        exact List.getElem_mem _
      exact (hmem _ hget).2
    · intro hcon
      omega
    · intro _
      exact ⟨by omega, fun _ => by omega⟩
    · intro j hj hoff
      have hz : (0 % (sortSpokes [seedA, seedB, seedC]).length +
          (sortSpokes [seedA, seedB, seedC]).length - 0) %
          (sortSpokes [seedA, seedB, seedC]).length = 0 := by
        rw [Nat.zero_mod, show 0 + (sortSpokes [seedA, seedB, seedC]).length - 0 =
          (sortSpokes [seedA, seedB, seedC]).length by omega, Nat.mod_self]
      rw [hz] at hoff
      omega
    · intro j hj
      have hget : (sortSpokes [seedA, seedB, seedC]).getD j default ∈
          sortSpokes [seedA, seedB, seedC] := by
        rw [List.getD_eq_getElem _ _ hj]
        exact List.getElem_mem _
      exact (hmem _ hget).1
  have hmain := placeLoop_gapBound s maxGap minFactor
    ((sortSpokes [seedA, seedB, seedC]).getD 0 default).oid hs fuel
    ⟨sortSpokes [seedA, seedB, seedC], [], 0, pos, fresh⟩ st' hrun hinit
  intro g hg
  rw [circGaps_eq_map] at hg
  obtain ⟨j, hjr, hje⟩ := List.mem_map.mp hg
  have hj : j < st'.spokes.length := List.mem_range.mp hjr
  subst hje
  refine ⟨hmain.1 j hj, ?_⟩
  have hgw : (gapAt st'.spokes j).wf := gapAt_wf (by omega) hmain.2 j hj
  exact le_of_not_lt ((qLtB_eq_false_iff hmg hgw).mp (hmain.1 j hj))

/-- Result of the demo placement run: seed spokes at 0°, 120°, 240°,
`maxGap = 30`, constant stream `1/2` (every insertion at the midpoint
of its arc).  The loop fills the circle with spokes every 30°,
wrapping past the starting radius (the final index `15` exceeds the
final length `12`), and terminates with all twelve gaps equal to 30. -/
def demoPlaceRes : PlaceState :=
  ⟨[⟨10, ⟨270, 1⟩⟩, ⟨9, ⟨300, 1⟩⟩, ⟨11, ⟨330, 1⟩⟩, ⟨0, ⟨0, 1⟩⟩,
    ⟨4, ⟨30, 1⟩⟩, ⟨3, ⟨60, 1⟩⟩, ⟨5, ⟨90, 1⟩⟩, ⟨1, ⟨120, 1⟩⟩,
    ⟨7, ⟨150, 1⟩⟩, ⟨6, ⟨180, 1⟩⟩, ⟨8, ⟨210, 1⟩⟩, ⟨2, ⟨240, 1⟩⟩],
   [⟨3, ⟨60, 1⟩⟩, ⟨4, ⟨30, 1⟩⟩, ⟨5, ⟨90, 1⟩⟩, ⟨6, ⟨180, 1⟩⟩,
    ⟨7, ⟨150, 1⟩⟩, ⟨8, ⟨210, 1⟩⟩, ⟨9, ⟨300, 1⟩⟩, ⟨10, ⟨270, 1⟩⟩,
    ⟨11, ⟨330, 1⟩⟩],
   15, 9, 12⟩

/-- C1 witness: the gap bound instantiated on the demo placement run
(the run wraps past the starting radius, exercising the second lap);
the gap `30` occurs in the result and passes both readings of the
bound. -/
theorem placement_gap_bound_witness :
    placeSpokes halfStream (qOfInt 30) (qRaw 1 4) ⟨0, qOfInt 0⟩ ⟨1, qOfInt 120⟩
        ⟨2, qOfInt 240⟩ 0 3 64 = some demoPlaceRes ∧
    ((⟨30, 1⟩ : Q) ∈ circGaps demoPlaceRes.spokes) ∧
    qLtB (qOfInt 30) ⟨30, 1⟩ = false ∧ (⟨30, 1⟩ : Q).toRat ≤ (qOfInt 30).toRat := by
  have hrun : placeSpokes halfStream (qOfInt 30) (qRaw 1 4) ⟨0, qOfInt 0⟩
      ⟨1, qOfInt 120⟩ ⟨2, qOfInt 240⟩ 0 3 64 = some demoPlaceRes := by decide
  have h := placement_gap_bound halfStream (qOfInt 30) (qRaw 1 4) ⟨0, qOfInt 0⟩
    ⟨1, qOfInt 120⟩ ⟨2, qOfInt 240⟩ 0 3 64 demoPlaceRes
    (fun _ => by show (0 : ℤ) < 2; decide) (by show (0 : ℤ) < 1; decide)
    ⟨by show (0 : ℤ) < 1; decide, by show (0 : ℤ) < 1; decide,
      by show (0 : ℤ) < 1; decide⟩
    (by decide) ⟨by decide, by decide, by decide⟩ hrun ⟨30, 1⟩ (by decide)
  exact ⟨hrun, by decide, h.1, h.2⟩

end OrbWeaver
